import Mathlib

/-!
Verification development for the configuration-scope evaluation engine of
`sacred/config_scope.py`.

The Python module is shallowly embedded: Python dicts become association
lists over `String` keys and a `Value` type of JSON-like values; the
tracking namespace (`DogmaticDict`, imported from `sacred.custom_containers`
which is not part of the given sources) is modelled from the specification's
"Tracking Namespace" section; executed function bodies become explicit
sequences of assignment statements over a small expression language.
-/

set_option autoImplicit false

namespace Sacred

/-- A Python runtime value as far as the config-scope engine can observe it:
JSON-like data, the numpy boolean wrapper (`np.bool_`), and otherwise-opaque
objects (identified by a tag) that `json.dumps` rejects with a `TypeError`. -/
inductive Value where
  | vnone : Value
  | vbool : Bool → Value
  | npBool : Bool → Value
  | vint : Int → Value
  | vstr : String → Value
  | vdict : List (String × Value) → Value
  | vobj : Nat → Value
  deriving Repr

/-- A Python dict with string keys: an association list, first binding wins
on lookup (real dicts have distinct keys; see `keysNodup` hypotheses). -/
abbrev Dict := List (String × Value)

/-- Python `d[k]` as an `Option`: the first binding of `k`. -/
def lookupD : Dict → String → Option Value
  | [], _ => none
  | (k', v) :: rest, k => if k' = k then some v else lookupD rest k

/-- The list of keys of a dict, in insertion order. -/
def keysD (d : Dict) : List String := d.map Prod.fst

/-- Python `k in d`. -/
def hasKeyD (d : Dict) (k : String) : Bool := d.any (fun kv => kv.1 = k)

/-- Python `d[k] = v` on a plain dict: replace the (first) binding of the
key in place if it is present, otherwise append a new binding — dict
insertion-order semantics. -/
def insertD : Dict → String → Value → Dict
  | [], k, v => [(k, v)]
  | (k', w) :: rest, k, v =>
    if k' = k then (k, v) :: rest else (k', w) :: insertD rest k v

/-- Python `d.update(other)` on plain dicts. -/
def updateD (d other : Dict) : Dict :=
  other.foldl (fun acc kv => insertD acc kv.1 kv.2) d

mutual
/-- Whether `json.dumps` succeeds on a value (`config_scope.py` uses this to
filter/validate values).  `np.bool_` is not JSON-serializable unaided. -/
def jsonSerializable : Value → Bool
  | .vnone => true
  | .vbool _ => true
  | .npBool _ => false
  | .vint _ => true
  | .vstr _ => true
  | .vdict entries => jsonSerializableList entries
  | .vobj _ => false

def jsonSerializableList : List (String × Value) → Bool
  | [] => true
  | (_, v) :: rest => jsonSerializable v && jsonSerializableList rest
end

/-- Python `type(v)` at the granularity the engine distinguishes. -/
def typeTag : Value → String
  | .vnone => "NoneType"
  | .vbool _ => "bool"
  | .npBool _ => "numpy.bool_"
  | .vint _ => "int"
  | .vstr _ => "str"
  | .vdict _ => "dict"
  | .vobj _ => "object"

/-- Python `key.startswith('_')` on a dict key. -/
def startsWithUnderscore (k : String) : Bool := k.data.head? = some '_'

/-- Modelled from the spec: the Tracking Namespace (`DogmaticDict` of
`sacred.custom_containers`, not among the given sources).  `store` is the
primary key-value store, `initialKeys` the keys present at initialization
(the authoritative `fixed` layer), `fallback` the read-only side-table, and
the remaining fields the provenance records the spec describes. -/
structure DogmaticDict where
  store : Dict
  initialKeys : List String
  modified : List String
  typechanges : List (String × String × String)
  fallback : Dict
  ignored_fallback_writes : List String
  deriving Repr

/-- Modelled from the spec: build a Tracking Namespace seeded from `fixed`;
every key present at initialization is marked authoritative. -/
def dogmatize (fixed : Dict) : DogmaticDict :=
  { store := fixed
    initialKeys := keysD fixed
    modified := []
    typechanges := []
    fallback := []
    ignored_fallback_writes := [] }

/-- Append an element to a list if it is not already a member (set-like
insertion used for the `modified` record). -/
def addOnce (l : List String) (k : String) : List String :=
  if k ∈ l then l else l ++ [k]

/-- Modelled from the spec: the Tracking Namespace's write semantics
(`DogmaticDict.__setitem__`).  A write to an authoritative key is recorded in
`modified` and reverted; a write to a name that currently resolves only
through the fallback side-table is accepted but appended to
`ignored_fallback_writes`; a rebinding that changes the value's concrete type
is recorded in `typechanges`. -/
def dset (d : DogmaticDict) (k : String) (v : Value) : DogmaticDict :=
  if k ∈ d.initialKeys then
    { d with modified := addOnce d.modified k }
  else
    let tcs := match lookupD d.store k with
      | some old =>
        if typeTag old ≠ typeTag v then d.typechanges ++ [(k, typeTag old, typeTag v)]
        else d.typechanges
      | none => d.typechanges
    let ign := if ¬ hasKeyD d.store k ∧ hasKeyD d.fallback k then
        d.ignored_fallback_writes ++ [k]
      else d.ignored_fallback_writes
    { d with store := insertD d.store k v, typechanges := tcs,
             ignored_fallback_writes := ign }

/-- Modelled from the spec: `DogmaticDict.update`, merging a plain dict into
the namespace through the dogmatic write semantics. -/
def dupdate (d : DogmaticDict) (other : Dict) : DogmaticDict :=
  other.foldl (fun acc kv => dset acc kv.1 kv.2) d

/-- Modelled from the spec: `revelation()` — the key set added since
initialization, "keys present now minus keys present at start". -/
def revelation (d : DogmaticDict) : List String :=
  (keysD d.store).filter (fun k => k ∉ d.initialKeys)

/-- Modelled from the spec: `undogmatize`, the conversion of a tracking
namespace value back into an ordinary plain structure.  Plain values are
already ordinary in this embedding, so it is the identity. -/
def undogmatize (d : Dict) : Dict := d

/-- An expression of an executed config-function body: a literal or a read
of a name, resolved from the primary store first and the fallback
side-table second. -/
inductive Expr where
  | lit : Value → Expr
  | evar : String → Expr
  deriving Repr

/-- Evaluate an expression against the namespace; `none` models a Python
`NameError` for an unresolvable name. -/
def evalExpr (d : DogmaticDict) : Expr → Option Value
  | .lit v => some v
  | .evar k =>
    match lookupD d.store k with
    | some v => some v
    | none => lookupD d.fallback k

/-- A statement of an executed body: a plain assignment (the declarative
blocks the engine evaluates consist of assignment statements). -/
inductive Stmt where
  | assign : String → Expr → Stmt
  deriving Repr

/-- Execute one body statement inside the tracking namespace. -/
def execStmt (d : DogmaticDict) : Stmt → Option DogmaticDict
  | .assign k e => (evalExpr d e).map (fun v => dset d k v)

/-- Execute a body (`eval(self._body_code, …, cfg_locals)`): run each
assignment in order; `none` models an exception escaping the body. -/
def execBody (d : DogmaticDict) : List Stmt → Option DogmaticDict
  | [] => some d
  | s :: rest => (execStmt d s).bind (fun d' => execBody d' rest)

mutual
/-- `recursive_fill_in(config, preset)`: for every key of `preset` missing
from `config`, copy it in; for a key present in both whose `config` value is
a dict, recurse into the nested structures.  `none` models the `TypeError`
Python raises when the recursion hits a preset value that is not iterable as
a mapping (a nested dict replaced by a scalar); iterating an empty string is
the one such mismatch that silently does nothing. -/
def recursive_fill_in (config : Dict) : Dict → Option Dict
  | [] => some config
  | (k, pv) :: rest => do
    let c' ← fill_in_key config k pv
    recursive_fill_in c' rest

/-- One step of `recursive_fill_in` for a single preset binding. -/
def fill_in_key (config : Dict) (k : String) (pv : Value) : Option Dict :=
  match lookupD config k with
  | none => some (insertD config k pv)
  | some (Value.vdict dsub) =>
    match pv with
    | Value.vdict pd =>
      (recursive_fill_in dsub pd).map (fun dsub2 => insertD config k (Value.vdict dsub2))
    | Value.vstr s => if s = "" then some config else none
    | _ => none
  | some _ => some config
end

/-- The transformation the harvest loop of `ConfigScope.__call__` applies to
one binding: skip keys starting with `'_'`, convert a `numpy.bool_` to a
plain bool, include other values only when JSON-serializable. -/
def harvestVal (k : String) (v : Value) : Option Value :=
  if startsWithUnderscore k then none
  else match v with
    | .npBool b => some (.vbool b)
    | _ => if jsonSerializable v then some v else none

/-- The harvest loop, folding `harvestVal` over the namespace's bindings. -/
def harvestAux (acc : Dict) : Dict → Dict
  | [] => acc
  | (k, v) :: rest =>
    match harvestVal k v with
    | some w => harvestAux (insertD acc k w) rest
    | none => harvestAux acc rest

/-- `ConfigScope.__call__`'s result harvest (source lines 220–231). -/
def harvest (store : Dict) : Dict := harvestAux [] store

/-- The `ConfigSummary` an entry evaluation returns: the materialized
mapping plus the four metadata records. -/
structure ConfigSummary where
  result : Dict
  added_values : List String
  modified : List String
  typechanges : List (String × String × String)
  ignored_fallback_writes : List String
  deriving Repr

/-- The exceptions an entry evaluation can raise. -/
inductive EvalError where
  | unresolvedParam (name : String) (available : List String)
  | noneTypeUpdate
  | bodyRaised
  | fillInTypeError
  deriving Repr

/-- A `ConfigScope`: the declared parameter names and the extracted body.
Construction already validated that there are no variadic, keyword or
defaulted parameters, so only plain names remain. -/
structure ConfigScope where
  args : List String
  body : List Stmt
  deriving Repr

/-- `set(preset.keys()) | set(fallback.keys())`, the names available to the
declared parameters. -/
def availableEntries (pre fb : Dict) : List String :=
  (keysD pre ++ keysD fb).dedup

/-- The parameter-binding loop of `ConfigScope.__call__` (source lines
198–206): a parameter present in `preset` is bound into the namespace, one
present only in `fallback` is put in the fallback view, and one present in
neither raises a `KeyError` naming it and the available options. -/
def bindArgs (pre fb : Dict) (avail : List String) :
    DogmaticDict → Dict → List String → Except EvalError (DogmaticDict × Dict)
  | d, fbview, [] => .ok (d, fbview)
  | d, fbview, arg :: rest =>
    match lookupD pre arg with
    | some v => bindArgs pre fb avail (dset d arg v) fbview rest
    | none =>
      match lookupD fb arg with
      | some v => bindArgs pre fb avail d (insertD fbview arg v) rest
      | none => .error (.unresolvedParam arg avail)

/-- The seeding phase of `ConfigScope.__call__`: dogmatize `fixed`, bind the
declared parameters, and install the fallback view (source lines 191–208). -/
def seedScope (sc : ConfigScope) (fixedD preD fbD : Dict) :
    Except EvalError DogmaticDict :=
  match bindArgs preD fbD (availableEntries preD fbD) (dogmatize fixedD) [] sc.args with
  | .error e => .error e
  | .ok (d, fbview) => .ok { d with fallback := fbview }

/-- `ConfigScope.__call__` (source lines 169–232): seed the namespace,
execute the body, snapshot the four metadata records, fill unused presets
back in, and harvest the serialization-safe result. -/
def scopeCall (sc : ConfigScope) (fixed preset fallback : Option Dict) :
    Except EvalError ConfigSummary :=
  match seedScope sc (fixed.getD []) (preset.getD []) (fallback.getD []) with
  | .error e => .error e
  | .ok d1 =>
    match execBody d1 sc.body with
    | none => .error .bodyRaised
    | some d2 =>
      match recursive_fill_in d2.store (preset.getD []) with
      | none => .error .fillInTypeError
      | some store2 =>
        .ok { result := harvest store2
              added_values := revelation d2
              modified := d2.modified
              typechanges := d2.typechanges
              ignored_fallback_writes := d2.ignored_fallback_writes }

/-- The construction-time errors of `ConfigDict.__init__`: a `KeyError`
naming an invalid key, or a `ValueError` naming the key whose value is not
JSON-serializable. -/
inductive BuildError where
  | invalidKey (key : String)
  | invalidValue (key : String)
  deriving Repr, DecidableEq

/-- Modelled from the spec: `PYTHON_IDENTIFIER` of `sacred.utils` (not among
the given sources) — a syntactically valid identifier-shaped string that
does not begin with the private-name marker `'_'`. -/
def isValidIdent (s : String) : Bool :=
  match s.data with
  | [] => false
  | c :: rest => c.isAlpha && rest.all (fun ch => ch.isAlphanum || ch = '_')

/-- One iteration of the validation loop of `ConfigDict.__init__` (source
lines 123–138). -/
def validateEntry (conf : Dict) (k : String) (v : Value) : Except BuildError Dict :=
  if ¬ isValidIdent k then .error (.invalidKey k)
  else match v with
    | .npBool b => .ok (insertD conf k (.vbool b))
    | _ =>
      if jsonSerializable v then .ok (insertD conf k v)
      else .error (.invalidValue k)

/-- The validation loop of `ConfigDict.__init__` over the remaining items,
carrying the `_conf` built so far. -/
def configDictInitAux (conf : Dict) : List (String × Value) → Except BuildError Dict
  | [] => .ok conf
  | (k, v) :: rest =>
    match validateEntry conf k v with
    | .error e => .error e
    | .ok conf2 => configDictInitAux conf2 rest

/-- `ConfigDict.__init__` (source lines 119–138): validate every key and
value of the given mapping and produce the stored `_conf`. -/
def configDictInit (d : List (String × Value)) : Except BuildError Dict :=
  configDictInitAux [] d

/-- `ConfigDict.__call__` (source lines 140–152): dogmatize `fixed`, merge
`preset` then the literal values through the dogmatic write semantics, and
return the summary.  A `preset` of `None` is not defaulted and makes
`result.update(preset)` raise a `TypeError`. -/
def dictCall (conf : Dict) (fixed preset fallback : Option Dict) :
    Except EvalError ConfigSummary :=
  match preset with
  | none => .error .noneTypeUpdate
  | some preD =>
    let r2 := dupdate (dupdate (dogmatize (fixed.getD [])) preD) conf
    .ok { result := undogmatize r2.store
          added_values := revelation r2
          modified := r2.modified
          typechanges := r2.typechanges
          ignored_fallback_writes := [] }

/-- A config entry: a dynamic `ConfigScope` or a literal `ConfigDict`. -/
inductive ConfigEntry where
  | scope : ConfigScope → ConfigEntry
  | litdict : Dict → ConfigEntry
  deriving Repr

/-- Evaluate a config entry (`ConfigEntry.__call__` dispatch). -/
def entryCall : ConfigEntry → Option Dict → Option Dict → Option Dict →
    Except EvalError ConfigSummary
  | .scope sc, fixed, preset, fallback => scopeCall sc fixed preset fallback
  | .litdict conf, fixed, preset, fallback => dictCall conf fixed preset fallback

/-- The loop of the chain evaluator (source lines 91–96): evaluate each
entry with the running result as its preset, collect the summary, merge the
produced result over the running result. -/
def chainLoop (fixedD fbD : Dict) :
    Dict → List ConfigSummary → List ConfigEntry →
    Except EvalError (Dict × List ConfigSummary)
  | final, sums, [] => .ok (final, sums)
  | final, sums, entry :: rest =>
    match entryCall entry (some fixedD) (some final) (some fbD) with
    | .error e => .error e
    | .ok cfg => chainLoop fixedD fbD (updateD final cfg.result) (sums ++ [cfg]) rest

/-- `chain_evaluate_config_scopes` (source lines 85–101): fold the entries,
threading the running result forward as each entry's preset; with no entries
merge `fixed` directly onto the running result. -/
def chain_evaluate_config_scopes (entries : List ConfigEntry)
    (fixed preset fallback : Option Dict) :
    Except EvalError (Dict × List ConfigSummary) :=
  match chainLoop (fixed.getD []) (fallback.getD []) (preset.getD []) [] entries with
  | .error e => .error e
  | .ok acc =>
    if entries.isEmpty then .ok (undogmatize (updateD acc.1 (fixed.getD [])), acc.2)
    else .ok (undogmatize acc.1, acc.2)

/-- The whitespace characters of Python's `str.strip()` and the regex
class `\s` (source text is ASCII here). -/
def isPyWhitespace (c : Char) : Bool :=
  c = ' ' || c = '\t' || c = '\n' || c = '\r' || c = '\x0b' || c = '\x0c'

/-- Python `line.strip()`. -/
def stripChars (l : List Char) : List Char :=
  ((l.dropWhile isPyWhitespace).reverse.dropWhile isPyWhitespace).reverse

/-- `is_empty_or_comment` (source lines 37–39): the stripped line is empty
or starts with `'#'`. -/
def is_empty_or_comment (line : List Char) : Bool :=
  let s := stripChars line
  s.isEmpty || s.head? = some '#'

/-- `re.match('^\s*', line).group()`: the leading whitespace run. -/
def leadingWhitespace (line : List Char) : List Char :=
  line.takeWhile isPyWhitespace

/-- Accumulator-passing worker for `splitLines`. -/
def splitLinesAux (cur : List Char) : List Char → List (List Char)
  | [] => [cur.reverse]
  | c :: rest =>
    if c = '\n' then cur.reverse :: splitLinesAux [] rest
    else splitLinesAux (c :: cur) rest

/-- Python `body.split('\n')`. -/
def splitLines (body : List Char) : List (List Char) := splitLinesAux [] body

/-- Python `'\n'.join(lines)`. -/
def joinLines : List (List Char) → List Char
  | [] => []
  | [l] => l
  | l :: rest => l ++ '\n' :: joinLines rest

/-- The index of the first position where the line and the indent disagree
(`for i, (line_sym, indent_sym) in enumerate(zip(line, indent)) …`);
`none` when the zipped prefixes agree throughout. -/
def mismatchIdx : List Char → List Char → Option Nat
  | c :: cs, i :: is2 =>
    if c ≠ i then some 0 else (mismatchIdx cs is2).map (· + 1)
  | _, _ => none

/-- `dedent_line` (source lines 42–49): drop the prefix of the line up to
the first position where it disagrees with the indent; when the zipped
prefixes fully agree, drop `len(indent)` characters. -/
def dedent_line (line indent : List Char) : List Char :=
  let start := match mismatchIdx line indent with
    | some i => i
    | none => indent.length
  line.drop start

/-- The indent-finding loop of `dedent_function_body` (source lines 55–61):
the leading whitespace of the first non-blank, non-comment line, or the
empty indent when there is none. -/
def findIndent : List (List Char) → List Char
  | [] => []
  | l :: rest =>
    if is_empty_or_comment l then findIndent rest else leadingWhitespace l

/-- `dedent_function_body` (source lines 52–64): split into lines, find the
indent from the first non-blank non-comment line, dedent every line, and
rejoin. -/
def dedent_function_body (body : List Char) : List Char :=
  joinLines ((splitLines body).map
    (fun l => dedent_line l (findIndent (splitLines body))))

/-- The length of the longest common prefix of a line and the indent (the
number of characters `dedent_line` actually removes). -/
def commonPrefixLen : List Char → List Char → Nat
  | c :: cs, i :: is2 => if c = i then commonPrefixLen cs is2 + 1 else 0
  | _, _ => 0

/-- The top-level numpy-boolean shim both `ConfigDict.__init__` and the
harvest apply before the serializability check: an `np.bool_` value itself
becomes a plain bool; nothing is converted inside containers. -/
def npShim : Value → Value
  | .npBool b => .vbool b
  | v => v

/-- Whether an entry's own logic assigns the key: its literal mapping binds
it, or its body contains an assignment statement to it. -/
def entryAssignsKey : ConfigEntry → String → Prop
  | .litdict conf, k => k ∈ keysD conf
  | .scope sc, k => ∃ e, Stmt.assign k e ∈ sc.body

/-- Representation validity of an entry: a literal entry's stored mapping
is a real Python dict, so its keys are distinct. -/
def entryWF : ConfigEntry → Prop
  | .litdict conf => (keysD conf).Nodup
  | .scope _ => True

/-- The invariant that every authoritative key is present in the store
(true from initialization on, since authoritative writes are reverted,
never deleted). -/
def wfInit (d : DogmaticDict) : Prop :=
  ∀ j ∈ d.initialKeys, hasKeyD d.store j = true

/-- Whether one `fill_in_key` step succeeds, as a function of the config's
current value at the key and the preset value. -/
def fillKeyOK (cv : Option Value) (pv : Value) : Bool :=
  match cv with
  | none => true
  | some (.vdict dsub) =>
    match pv with
    | .vdict pd => (recursive_fill_in dsub pd).isSome
    | .vstr s => s = ""
    | _ => false
  | some _ => true

/-- The value a key holds after its `fill_in_key` step, when that step
succeeds. -/
def fillVal (cv : Option Value) (pv : Value) : Option Value :=
  match cv with
  | none => some pv
  | some (.vdict dsub) =>
    match pv with
    | .vdict pd => (recursive_fill_in dsub pd).map Value.vdict
    | _ => some (.vdict dsub)
  | some w => some w

/-- Python's `a or b` on optional lookup results (first one that is set). -/
def orO (a b : Option Value) : Option Value :=
  match a with
  | some v => some v
  | none => b


/-! ### Basic association-list lemmas -/

theorem hasKeyD_iff_lookup {d : Dict} {k : String} :
    hasKeyD d k = true ↔ (lookupD d k).isSome = true := by
  induction d with
  | nil => simp [hasKeyD, lookupD]
  | cons kv rest ih =>
    obtain ⟨k', v⟩ := kv
    by_cases h : k' = k
    · simp [hasKeyD, lookupD, h]
    · simp only [hasKeyD, List.any_cons] at *
      simp [lookupD, h, ih]

theorem lookup_eq_none_of_not_hasKey {d : Dict} {k : String}
    (h : hasKeyD d k = false) : lookupD d k = none := by
  cases hl : lookupD d k with
  | none => rfl
  | some v =>
    have : hasKeyD d k = true := hasKeyD_iff_lookup.mpr (by simp [hl])
    rw [this] at h; cases h

theorem hasKey_of_lookup_some {d : Dict} {k : String} {v : Value}
    (h : lookupD d k = some v) : hasKeyD d k = true :=
  hasKeyD_iff_lookup.mpr (by simp [h])

theorem hasKeyD_iff_mem_keys {d : Dict} {k : String} :
    hasKeyD d k = true ↔ k ∈ keysD d := by
  induction d with
  | nil => simp [hasKeyD, keysD]
  | cons kv rest ih =>
    simp only [hasKeyD, List.any_cons] at *
    simp only [keysD, List.map_cons, List.mem_cons]
    constructor
    · intro h
      rcases Bool.or_eq_true_iff.mp h with h | h
      · exact Or.inl (of_decide_eq_true h).symm
      · exact Or.inr (ih.mp h)
    · intro h
      rcases h with h | h
      · exact Bool.or_eq_true_iff.mpr (Or.inl (decide_eq_true h.symm))
      · exact Bool.or_eq_true_iff.mpr (Or.inr (ih.mpr h))

theorem lookup_insertD_self (d : Dict) (k : String) (v : Value) :
    lookupD (insertD d k v) k = some v := by
  induction d with
  | nil => simp [insertD, lookupD]
  | cons kv rest ih =>
    obtain ⟨k', w⟩ := kv
    by_cases hk : k' = k
    · simp [insertD, hk, lookupD]
    · simp [insertD, hk, lookupD, ih]

theorem lookup_insertD_ne (d : Dict) (k k' : String) (v : Value)
    (h : k' ≠ k) : lookupD (insertD d k v) k' = lookupD d k' := by
  have hne : k ≠ k' := Ne.symm h
  induction d with
  | nil => simp [insertD, lookupD, hne]
  | cons kv rest ih =>
    obtain ⟨k₁, w⟩ := kv
    by_cases hk : k₁ = k
    · subst hk
      simp [insertD, lookupD, hne]
    · simp [insertD, hk, lookupD, ih]

theorem hasKey_insertD (d : Dict) (k k' : String) (v : Value) :
    hasKeyD (insertD d k v) k' = (decide (k' = k) || hasKeyD d k') := by
  by_cases h : k' = k
  · subst h
    simp [hasKey_of_lookup_some (lookup_insertD_self d k' v)]
  · rw [Bool.eq_iff_iff]
    simp only [Bool.or_eq_true_iff, decide_eq_true_iff]
    rw [hasKeyD_iff_lookup, hasKeyD_iff_lookup, lookup_insertD_ne d k k' v h]
    tauto

theorem keysD_insertD_of_hasKey {d : Dict} {k : String} (v : Value)
    (h : hasKeyD d k = true) : keysD (insertD d k v) = keysD d := by
  induction d with
  | nil => simp [hasKeyD] at h
  | cons kv rest ih =>
    obtain ⟨k', w⟩ := kv
    by_cases hk : k' = k
    · simp [insertD, hk, keysD]
    · simp only [hasKeyD, List.any_cons] at h
      rcases Bool.or_eq_true_iff.mp h with h' | h'
      · exact absurd (of_decide_eq_true h') hk
      · simp only [insertD, hk, if_false, keysD, List.map_cons]
        have := ih (by simpa [hasKeyD] using h')
        simpa [keysD] using this

theorem keysD_insertD_of_not_hasKey {d : Dict} {k : String} (v : Value)
    (h : hasKeyD d k = false) : keysD (insertD d k v) = keysD d ++ [k] := by
  induction d with
  | nil => simp [insertD, keysD]
  | cons kv rest ih =>
    obtain ⟨k', w⟩ := kv
    simp only [hasKeyD, List.any_cons, Bool.or_eq_false_iff] at h
    have hk : k' ≠ k := fun he => by simp [he] at h
    simp only [insertD, hk, if_false, keysD, List.map_cons, List.cons_append]
    have := ih (by simpa [hasKeyD] using h.2)
    simpa [keysD] using this

theorem nodup_keysD_insertD {d : Dict} {k : String} (v : Value)
    (h : (keysD d).Nodup) : (keysD (insertD d k v)).Nodup := by
  by_cases hh : hasKeyD d k = true
  · rw [keysD_insertD_of_hasKey v hh]; exact h
  · rw [keysD_insertD_of_not_hasKey v (by simpa using hh)]
    rw [List.nodup_append]
    refine ⟨h, List.nodup_singleton k, ?_⟩
    intro a ha hb
    simp only [List.mem_singleton] at hb
    subst hb
    exact absurd (hasKeyD_iff_mem_keys.mpr ha) (by simpa using hh)

theorem lookup_updateD {d o : Dict} (ho : (keysD o).Nodup) (k : String) :
    lookupD (updateD d o) k =
      match lookupD o k with
      | some v => some v
      | none => lookupD d k := by
  induction o generalizing d with
  | nil => simp [updateD, lookupD]
  | cons kv rest ih =>
    obtain ⟨k₁, v₁⟩ := kv
    have ho' : (k₁ :: keysD rest).Nodup := ho
    have hrest : (keysD rest).Nodup := ho'.of_cons
    have hstep : updateD d ((k₁, v₁) :: rest) = updateD (insertD d k₁ v₁) rest := rfl
    rw [hstep, ih hrest]
    by_cases hk : k₁ = k
    · subst hk
      have hk₁ : k₁ ∉ keysD rest := (List.nodup_cons.mp ho').1
      have : lookupD rest k₁ = none := by
        apply lookup_eq_none_of_not_hasKey
        cases hhh : hasKeyD rest k₁
        · rfl
        · exact absurd (hasKeyD_iff_mem_keys.mp hhh) hk₁
      simp [lookupD, this, lookup_insertD_self]
    · simp only [lookupD]
      simp only [hk, if_false]
      cases hr : lookupD rest k
      · simp [lookup_insertD_ne d k₁ k v₁ (fun he => hk he.symm)]
      · simp

theorem hasKey_updateD {d o : Dict} (k : String) :
    hasKeyD (updateD d o) k = (hasKeyD d k || hasKeyD o k) := by
  induction o generalizing d with
  | nil => simp [updateD, hasKeyD]
  | cons kv rest ih =>
    obtain ⟨k₁, v₁⟩ := kv
    have hstep : updateD d ((k₁, v₁) :: rest) = updateD (insertD d k₁ v₁) rest := rfl
    rw [hstep, ih, hasKey_insertD]
    by_cases hk : k₁ = k
    · subst hk
      simp [hasKeyD, List.any_cons, Bool.or_comm, Bool.or_left_comm, Bool.or_assoc]
    · have : k ≠ k₁ := fun he => hk he.symm
      simp [hasKeyD, List.any_cons, this, hk, Bool.or_comm, Bool.or_left_comm, Bool.or_assoc]

theorem nodup_keysD_updateD {d o : Dict}
    (hd : (keysD d).Nodup) : (keysD (updateD d o)).Nodup := by
  induction o generalizing d with
  | nil => exact hd
  | cons kv rest ih =>
    exact ih (nodup_keysD_insertD kv.2 hd)

/-! ### Tracking-namespace lemmas -/

theorem dset_initialKeys (d : DogmaticDict) (k : String) (v : Value) :
    (dset d k v).initialKeys = d.initialKeys := by
  unfold dset
  by_cases h : k ∈ d.initialKeys <;> simp [h]

theorem dset_fallback (d : DogmaticDict) (k : String) (v : Value) :
    (dset d k v).fallback = d.fallback := by
  unfold dset
  by_cases h : k ∈ d.initialKeys <;> simp [h]

theorem dset_store_of_auth {d : DogmaticDict} {k : String} (v : Value)
    (h : k ∈ d.initialKeys) : (dset d k v).store = d.store := by
  unfold dset
  simp [h]

theorem dset_store_of_not_auth {d : DogmaticDict} {k : String} (v : Value)
    (h : k ∉ d.initialKeys) : (dset d k v).store = insertD d.store k v := by
  unfold dset
  simp [h]

theorem lookup_dset_store_auth {d : DogmaticDict} {k j : String} (v : Value)
    (hj : j ∈ d.initialKeys) :
    lookupD (dset d k v).store j = lookupD d.store j := by
  by_cases hk : k ∈ d.initialKeys
  · rw [dset_store_of_auth v hk]
  · rw [dset_store_of_not_auth v hk]
    exact lookup_insertD_ne _ k j v (fun he => hk (he ▸ hj))

theorem dset_modified_mono {d : DogmaticDict} {j : String} (k : String)
    (v : Value) (h : j ∈ d.modified) : j ∈ (dset d k v).modified := by
  unfold dset
  by_cases hk : k ∈ d.initialKeys
  · simp only [hk, if_true]
    unfold addOnce
    by_cases hm : k ∈ d.modified <;> simp [hm, h]
  · simp [hk, h]

theorem dset_modified_self {d : DogmaticDict} {k : String} (v : Value)
    (h : k ∈ d.initialKeys) : k ∈ (dset d k v).modified := by
  unfold dset
  simp only [h, if_true]
  unfold addOnce
  by_cases hm : k ∈ d.modified <;> simp [hm]

theorem dset_ignored_mono {d : DogmaticDict} {j : String} (k : String)
    (v : Value) (h : j ∈ d.ignored_fallback_writes) :
    j ∈ (dset d k v).ignored_fallback_writes := by
  unfold dset
  by_cases hk : k ∈ d.initialKeys
  · simp [hk, h]
  · simp only [hk, if_false]
    split <;> simp [h]

theorem dset_ignored_self {d : DogmaticDict} {k : String} (v : Value)
    (hs : hasKeyD d.store k = false) (hf : hasKeyD d.fallback k = true)
    (hk : k ∉ d.initialKeys) : k ∈ (dset d k v).ignored_fallback_writes := by
  unfold dset
  simp [hk, hs, hf]

theorem dset_store_hasKey_mono {d : DogmaticDict} {j : String} (k : String)
    (v : Value) (h : hasKeyD d.store j = true) :
    hasKeyD (dset d k v).store j = true := by
  by_cases hk : k ∈ d.initialKeys
  · rw [dset_store_of_auth v hk]; exact h
  · rw [dset_store_of_not_auth v hk, hasKey_insertD]
    simp [h]

theorem nodup_dset_store {d : DogmaticDict} (k : String) (v : Value)
    (h : (keysD d.store).Nodup) : (keysD (dset d k v).store).Nodup := by
  by_cases hk : k ∈ d.initialKeys
  · rw [dset_store_of_auth v hk]; exact h
  · rw [dset_store_of_not_auth v hk]; exact nodup_keysD_insertD v h

theorem wfInit_dogmatize (f : Dict) : wfInit (dogmatize f) := by
  intro j hj
  exact hasKeyD_iff_mem_keys.mpr hj

theorem wfInit_dset {d : DogmaticDict} (k : String) (v : Value)
    (h : wfInit d) : wfInit (dset d k v) := by
  intro j hj
  rw [dset_initialKeys] at hj
  exact dset_store_hasKey_mono k v (h j hj)

theorem execStmt_cases {d d' : DogmaticDict} {s : Stmt}
    (h : execStmt d s = some d') :
    ∃ k e v, s = Stmt.assign k e ∧ evalExpr d e = some v ∧ d' = dset d k v := by
  obtain ⟨k, e⟩ := s
  simp only [execStmt, Option.map_eq_some'] at h
  obtain ⟨v, hv, hd⟩ := h
  exact ⟨k, e, v, rfl, hv, hd.symm⟩

theorem execBody_initialKeys {d d' : DogmaticDict} {body : List Stmt}
    (h : execBody d body = some d') : d'.initialKeys = d.initialKeys := by
  induction body generalizing d with
  | nil =>
    simp only [execBody, Option.some.injEq] at h
    subst h
    rfl
  | cons s rest ih =>
    simp only [execBody, Option.bind_eq_some] at h
    obtain ⟨d₁, hs, hrest⟩ := h
    obtain ⟨k, e, v, _, _, hd₁⟩ := execStmt_cases hs
    rw [ih hrest, hd₁, dset_initialKeys]

theorem execBody_fallback {d d' : DogmaticDict} {body : List Stmt}
    (h : execBody d body = some d') : d'.fallback = d.fallback := by
  induction body generalizing d with
  | nil =>
    simp only [execBody, Option.some.injEq] at h
    subst h
    rfl
  | cons s rest ih =>
    simp only [execBody, Option.bind_eq_some] at h
    obtain ⟨d₁, hs, hrest⟩ := h
    obtain ⟨k, e, v, _, _, hd₁⟩ := execStmt_cases hs
    rw [ih hrest, hd₁, dset_fallback]

theorem execBody_store_auth {d d' : DogmaticDict} {body : List Stmt} {j : String}
    (h : execBody d body = some d') (hj : j ∈ d.initialKeys) :
    lookupD d'.store j = lookupD d.store j := by
  induction body generalizing d with
  | nil =>
    simp only [execBody, Option.some.injEq] at h
    subst h
    rfl
  | cons s rest ih =>
    simp only [execBody, Option.bind_eq_some] at h
    obtain ⟨d₁, hs, hrest⟩ := h
    obtain ⟨k, e, v, _, _, hd₁⟩ := execStmt_cases hs
    have hj₁ : j ∈ d₁.initialKeys := by rw [hd₁, dset_initialKeys]; exact hj
    rw [ih hrest hj₁, hd₁, lookup_dset_store_auth v hj]

theorem execBody_modified_mono {d d' : DogmaticDict} {body : List Stmt} {j : String}
    (h : execBody d body = some d') (hj : j ∈ d.modified) : j ∈ d'.modified := by
  induction body generalizing d with
  | nil =>
    simp only [execBody, Option.some.injEq] at h
    subst h; exact hj
  | cons s rest ih =>
    simp only [execBody, Option.bind_eq_some] at h
    obtain ⟨d₁, hs, hrest⟩ := h
    obtain ⟨k, e, v, _, _, hd₁⟩ := execStmt_cases hs
    exact ih hrest (by rw [hd₁]; exact dset_modified_mono k v hj)

theorem execBody_ignored_mono {d d' : DogmaticDict} {body : List Stmt} {j : String}
    (h : execBody d body = some d') (hj : j ∈ d.ignored_fallback_writes) :
    j ∈ d'.ignored_fallback_writes := by
  induction body generalizing d with
  | nil =>
    simp only [execBody, Option.some.injEq] at h
    subst h; exact hj
  | cons s rest ih =>
    simp only [execBody, Option.bind_eq_some] at h
    obtain ⟨d₁, hs, hrest⟩ := h
    obtain ⟨k, e, v, _, _, hd₁⟩ := execStmt_cases hs
    exact ih hrest (by rw [hd₁]; exact dset_ignored_mono k v hj)

theorem execBody_store_hasKey_mono {d d' : DogmaticDict} {body : List Stmt}
    {j : String} (h : execBody d body = some d')
    (hj : hasKeyD d.store j = true) : hasKeyD d'.store j = true := by
  induction body generalizing d with
  | nil =>
    simp only [execBody, Option.some.injEq] at h
    subst h; exact hj
  | cons s rest ih =>
    simp only [execBody, Option.bind_eq_some] at h
    obtain ⟨d₁, hs, hrest⟩ := h
    obtain ⟨k, e, v, _, _, hd₁⟩ := execStmt_cases hs
    exact ih hrest (by rw [hd₁]; exact dset_store_hasKey_mono k v hj)

theorem execBody_wfInit {d d' : DogmaticDict} {body : List Stmt}
    (h : execBody d body = some d') (hw : wfInit d) : wfInit d' := by
  induction body generalizing d with
  | nil =>
    simp only [execBody, Option.some.injEq] at h
    subst h; exact hw
  | cons s rest ih =>
    simp only [execBody, Option.bind_eq_some] at h
    obtain ⟨d₁, hs, hrest⟩ := h
    obtain ⟨k, e, v, _, _, hd₁⟩ := execStmt_cases hs
    exact ih hrest (by rw [hd₁]; exact wfInit_dset k v hw)

theorem execBody_nodup_store {d d' : DogmaticDict} {body : List Stmt}
    (h : execBody d body = some d') (hn : (keysD d.store).Nodup) :
    (keysD d'.store).Nodup := by
  induction body generalizing d with
  | nil =>
    simp only [execBody, Option.some.injEq] at h
    subst h; exact hn
  | cons s rest ih =>
    simp only [execBody, Option.bind_eq_some] at h
    obtain ⟨d₁, hs, hrest⟩ := h
    obtain ⟨k, e, v, _, _, hd₁⟩ := execStmt_cases hs
    exact ih hrest (by rw [hd₁]; exact nodup_dset_store k v hn)

theorem lookup_dset_store_ne {d : DogmaticDict} {k j : String} (v : Value)
    (h : j ≠ k) : lookupD (dset d k v).store j = lookupD d.store j := by
  by_cases hk : k ∈ d.initialKeys
  · rw [dset_store_of_auth v hk]
  · rw [dset_store_of_not_auth v hk]
    exact lookup_insertD_ne _ k j v h

theorem hasKey_dset_store {d : DogmaticDict} {k j : String} (v : Value) :
    hasKeyD (dset d k v).store j = true ↔
      hasKeyD d.store j = true ∨ (j = k ∧ k ∉ d.initialKeys) := by
  by_cases hk : k ∈ d.initialKeys
  · rw [dset_store_of_auth v hk]
    simp [hk]
  · rw [dset_store_of_not_auth v hk, hasKey_insertD]
    by_cases hj : j = k <;> simp [hj, hk]

theorem dset_store_hasKey_ne_false {d : DogmaticDict} {k j : String} (v : Value)
    (hne : j ≠ k) (h : hasKeyD d.store j = false) :
    hasKeyD (dset d k v).store j = false := by
  cases hh : hasKeyD (dset d k v).store j
  · rfl
  · rcases (hasKey_dset_store v).mp hh with h' | h'
    · rw [h'] at h; cases h
    · exact absurd h'.1 hne

theorem execBody_modified_of_assign {d d' : DogmaticDict} {body : List Stmt}
    {k : String} {e : Expr} (h : execBody d body = some d')
    (hmem : Stmt.assign k e ∈ body) (hk : k ∈ d.initialKeys) :
    k ∈ d'.modified := by
  induction body generalizing d with
  | nil => cases hmem
  | cons s rest ih =>
    simp only [execBody, Option.bind_eq_some] at h
    obtain ⟨d₁, hs, hrest⟩ := h
    obtain ⟨k₁, e₁, v, hseq, _, hd₁⟩ := execStmt_cases hs
    rcases List.mem_cons.mp hmem with hhead | htail
    · rw [hseq] at hhead
      injection hhead with h1 h2
      subst h1
      have : k ∈ d₁.modified := by
        rw [hd₁]; exact dset_modified_self v hk
      exact execBody_modified_mono hrest this
    · have hk₁ : k ∈ d₁.initialKeys := by
        rw [hd₁, dset_initialKeys]; exact hk
      exact ih hrest htail hk₁

theorem execBody_store_hasKey_of_assign {d d' : DogmaticDict} {body : List Stmt}
    {k : String} {e : Expr} (h : execBody d body = some d')
    (hmem : Stmt.assign k e ∈ body) (hk : k ∉ d.initialKeys) :
    hasKeyD d'.store k = true := by
  induction body generalizing d with
  | nil => cases hmem
  | cons s rest ih =>
    simp only [execBody, Option.bind_eq_some] at h
    obtain ⟨d₁, hs, hrest⟩ := h
    obtain ⟨k₁, e₁, v, hseq, _, hd₁⟩ := execStmt_cases hs
    rcases List.mem_cons.mp hmem with hhead | htail
    · rw [hseq] at hhead
      injection hhead with h1 h2
      subst h1
      have : hasKeyD d₁.store k = true := by
        rw [hd₁]
        exact (hasKey_dset_store v).mpr (Or.inr ⟨rfl, hk⟩)
      exact execBody_store_hasKey_mono hrest this
    · have hk₁ : k ∉ d₁.initialKeys := by
        rw [hd₁, dset_initialKeys]; exact hk
      exact ih hrest htail hk₁

theorem execBody_ignored_of_fallback_assign {d d' : DogmaticDict}
    {body : List Stmt} {k : String} {e : Expr}
    (h : execBody d body = some d') (hmem : Stmt.assign k e ∈ body)
    (hs : hasKeyD d.store k = false) (hf : hasKeyD d.fallback k = true)
    (hk : k ∉ d.initialKeys) : k ∈ d'.ignored_fallback_writes := by
  induction body generalizing d with
  | nil => cases hmem
  | cons s rest ih =>
    simp only [execBody, Option.bind_eq_some] at h
    obtain ⟨d₁, hs₁, hrest⟩ := h
    obtain ⟨k₁, e₁, v, hseq, _, hd₁⟩ := execStmt_cases hs₁
    by_cases hkk : k₁ = k
    · subst hkk
      have : k₁ ∈ d₁.ignored_fallback_writes := by
        rw [hd₁]; exact dset_ignored_self v hs hf hk
      exact execBody_ignored_mono hrest this
    · rcases List.mem_cons.mp hmem with hhead | htail
      · rw [hseq] at hhead
        injection hhead with h1 h2
        exact absurd h1.symm hkk
      · have hs' : hasKeyD d₁.store k = false := by
          rw [hd₁]
          exact dset_store_hasKey_ne_false v (fun he => hkk he.symm) hs
        have hf' : hasKeyD d₁.fallback k = true := by
          rw [hd₁, dset_fallback]; exact hf
        have hk' : k ∉ d₁.initialKeys := by
          rw [hd₁, dset_initialKeys]; exact hk
        exact ih hrest htail hs' hf' hk'

theorem execBody_store_key_source {d d' : DogmaticDict} {body : List Stmt}
    {j : String} (h : execBody d body = some d')
    (hj : hasKeyD d'.store j = true) :
    hasKeyD d.store j = true ∨ ∃ e, Stmt.assign j e ∈ body := by
  induction body generalizing d with
  | nil =>
    simp only [execBody, Option.some.injEq] at h
    subst h
    exact Or.inl hj
  | cons s rest ih =>
    simp only [execBody, Option.bind_eq_some] at h
    obtain ⟨d₁, hs, hrest⟩ := h
    obtain ⟨k₁, e₁, v, hseq, _, hd₁⟩ := execStmt_cases hs
    rcases ih hrest with h1 | ⟨e, he⟩
    · rw [hd₁] at h1
      rcases (hasKey_dset_store v).mp h1 with h2 | h2
      · exact Or.inl h2
      · refine Or.inr ⟨e₁, ?_⟩
        rw [hseq, h2.1]
        exact List.mem_cons_self _ _
    · exact Or.inr ⟨e, List.mem_cons_of_mem s he⟩

/-! ### `dupdate` lemmas -/

theorem dupdate_initialKeys (d : DogmaticDict) (o : Dict) :
    (dupdate d o).initialKeys = d.initialKeys := by
  induction o generalizing d with
  | nil => rfl
  | cons kv rest ih =>
    have hstep : dupdate d (kv :: rest) = dupdate (dset d kv.1 kv.2) rest := rfl
    rw [hstep, ih, dset_initialKeys]

theorem dupdate_fallback (d : DogmaticDict) (o : Dict) :
    (dupdate d o).fallback = d.fallback := by
  induction o generalizing d with
  | nil => rfl
  | cons kv rest ih =>
    have hstep : dupdate d (kv :: rest) = dupdate (dset d kv.1 kv.2) rest := rfl
    rw [hstep, ih, dset_fallback]

theorem lookup_dupdate_store_auth {d : DogmaticDict} {o : Dict} {j : String}
    (hj : j ∈ d.initialKeys) :
    lookupD (dupdate d o).store j = lookupD d.store j := by
  induction o generalizing d with
  | nil => rfl
  | cons kv rest ih =>
    have hstep : dupdate d (kv :: rest) = dupdate (dset d kv.1 kv.2) rest := rfl
    rw [hstep, ih (by rw [dset_initialKeys]; exact hj),
        lookup_dset_store_auth kv.2 hj]

theorem dupdate_modified_mono {d : DogmaticDict} {o : Dict} {j : String}
    (hj : j ∈ d.modified) : j ∈ (dupdate d o).modified := by
  induction o generalizing d with
  | nil => exact hj
  | cons kv rest ih =>
    exact ih (dset_modified_mono kv.1 kv.2 hj)

theorem dupdate_modified_of_mem {d : DogmaticDict} {o : Dict} {j : String}
    (hj : j ∈ keysD o) (hinit : j ∈ d.initialKeys) :
    j ∈ (dupdate d o).modified := by
  induction o generalizing d with
  | nil => cases hj
  | cons kv rest ih =>
    have hstep : dupdate d (kv :: rest) = dupdate (dset d kv.1 kv.2) rest := rfl
    rcases List.mem_cons.mp hj with hhead | htail
    · rw [hstep]
      apply dupdate_modified_mono
      subst hhead
      exact dset_modified_self kv.2 hinit
    · rw [hstep]
      exact ih htail (by rw [dset_initialKeys]; exact hinit)

theorem hasKey_dupdate_store {d : DogmaticDict} {o : Dict} {j : String} :
    hasKeyD (dupdate d o).store j = true ↔
      hasKeyD d.store j = true ∨ (j ∈ keysD o ∧ j ∉ d.initialKeys) := by
  induction o generalizing d with
  | nil => simp [dupdate, keysD]
  | cons kv rest ih =>
    have hstep : dupdate d (kv :: rest) = dupdate (dset d kv.1 kv.2) rest := rfl
    rw [hstep, ih, hasKey_dset_store, dset_initialKeys]
    have hkeys : keysD (kv :: rest) = kv.1 :: keysD rest := rfl
    rw [hkeys]
    constructor
    · rintro ((h | h) | ⟨hm, hn⟩)
      · exact Or.inl h
      · exact Or.inr ⟨by simp [h.1], h.1 ▸ h.2⟩
      · exact Or.inr ⟨List.mem_cons_of_mem _ hm, hn⟩
    · rintro (h | ⟨hm, hn⟩)
      · exact Or.inl (Or.inl h)
      · rcases List.mem_cons.mp hm with hh | ht
        · exact Or.inl (Or.inr ⟨hh, hh ▸ hn⟩)
        · exact Or.inr ⟨ht, hn⟩

theorem lookup_dupdate_store_not_auth {d : DogmaticDict} {o : Dict} {j : String}
    (hj : j ∉ d.initialKeys) (ho : (keysD o).Nodup) :
    lookupD (dupdate d o).store j =
      match lookupD o j with
      | some v => some v
      | none => lookupD d.store j := by
  induction o generalizing d with
  | nil => simp [dupdate, lookupD]
  | cons kv rest ih =>
    obtain ⟨k₁, v₁⟩ := kv
    have ho' : (k₁ :: keysD rest).Nodup := ho
    have hstep : dupdate d ((k₁, v₁) :: rest) = dupdate (dset d k₁ v₁) rest := rfl
    rw [hstep, ih (by rw [dset_initialKeys]; exact hj) ho'.of_cons]
    by_cases hk : k₁ = j
    · subst hk
      have hrest : lookupD rest k₁ = none := by
        apply lookup_eq_none_of_not_hasKey
        cases hhh : hasKeyD rest k₁
        · rfl
        · exact absurd (hasKeyD_iff_mem_keys.mp hhh) (List.nodup_cons.mp ho').1
      rw [hrest]
      have : (dset d k₁ v₁).store = insertD d.store k₁ v₁ :=
        dset_store_of_not_auth v₁ hj
      simp [lookupD, this, lookup_insertD_self]
    · have : lookupD (dset d k₁ v₁).store j = lookupD d.store j :=
        lookup_dset_store_ne v₁ (fun he => hk he.symm)
      simp only [lookupD, hk, if_false]
      cases hr : lookupD rest j <;> simp [this]

theorem nodup_dupdate_store {d : DogmaticDict} {o : Dict}
    (hn : (keysD d.store).Nodup) : (keysD (dupdate d o).store).Nodup := by
  induction o generalizing d with
  | nil => exact hn
  | cons kv rest ih =>
    exact ih (nodup_dset_store kv.1 kv.2 hn)

theorem revelation_mem {d : DogmaticDict} {j : String} :
    j ∈ revelation d ↔ j ∈ keysD d.store ∧ j ∉ d.initialKeys := by
  simp [revelation, List.mem_filter]

/-! ### `recursive_fill_in` lemmas -/

theorem mem_iff_lookup_of_nodup {d : Dict} {k : String} {v : Value}
    (hn : (keysD d).Nodup) : (k, v) ∈ d ↔ lookupD d k = some v := by
  induction d with
  | nil => simp [lookupD]
  | cons kv rest ih =>
    obtain ⟨k₁, v₁⟩ := kv
    have hn' : (k₁ :: keysD rest).Nodup := hn
    have hrest := hn'.of_cons
    have hk₁ : k₁ ∉ keysD rest := (List.nodup_cons.mp hn').1
    by_cases hk : k₁ = k
    · subst hk
      have hnone : lookupD rest k₁ = none := by
        apply lookup_eq_none_of_not_hasKey
        cases hhh : hasKeyD rest k₁
        · rfl
        · exact absurd (hasKeyD_iff_mem_keys.mp hhh) hk₁
      simp only [lookupD, if_pos rfl]
      constructor
      · intro hm
        rcases List.mem_cons.mp hm with hh | ht
        · injection hh with h1 h2
          simp [h2]
        · rw [(ih hrest).mp ht] at hnone
          cases hnone
      · intro hv
        injection hv with hv
        subst hv
        exact List.mem_cons_self _ _
    · simp only [lookupD, hk, if_false]
      rw [← ih hrest]
      constructor
      · intro hm
        rcases List.mem_cons.mp hm with hh | ht
        · injection hh with h1 h2
          exact absurd h1.symm hk
        · exact ht
      · intro hm
        exact List.mem_cons_of_mem _ hm

theorem recursive_fill_in_cons (c : Dict) (k : String) (pv : Value)
    (rest : Dict) :
    recursive_fill_in c ((k, pv) :: rest) =
      (fill_in_key c k pv).bind (fun c' => recursive_fill_in c' rest) := by
  rw [recursive_fill_in]
  rfl

theorem fill_in_key_lookup_ne {c c' : Dict} {k j : String} {pv : Value}
    (hne : j ≠ k) (h : fill_in_key c k pv = some c') :
    lookupD c' j = lookupD c j := by
  unfold fill_in_key at h
  cases hcv : lookupD c k with
  | none =>
    rw [hcv] at h
    injection h with h
    rw [← h]
    exact lookup_insertD_ne c k j pv hne
  | some w =>
    rw [hcv] at h
    cases w with
    | vdict dsub =>
      cases pv with
      | vdict pd =>
        simp only [Option.map_eq_some'] at h
        obtain ⟨dsub2, _, hc'⟩ := h
        rw [← hc']
        exact lookup_insertD_ne c k j _ hne
      | vstr s =>
        by_cases hs : s = ""
        · simp only [hs, if_pos rfl] at h
          injection h with h
          rw [← h]
        · simp only [hs, if_neg hs] at h
          cases h
      | vnone => cases h
      | vbool b => cases h
      | npBool b => cases h
      | vint n => cases h
      | vobj n => cases h
    | vnone => injection h with h; rw [← h]
    | vbool b => injection h with h; rw [← h]
    | npBool b => injection h with h; rw [← h]
    | vint n => injection h with h; rw [← h]
    | vstr s => injection h with h; rw [← h]
    | vobj n => injection h with h; rw [← h]

theorem fill_in_key_lookup_self {c c' : Dict} {k : String} {pv : Value}
    (h : fill_in_key c k pv = some c') :
    lookupD c' k = fillVal (lookupD c k) pv := by
  unfold fill_in_key at h
  cases hcv : lookupD c k with
  | none =>
    rw [hcv] at h
    injection h with h
    rw [← h]
    simp only [fillVal]
    exact lookup_insertD_self c k pv
  | some w =>
    rw [hcv] at h
    cases w with
    | vdict dsub =>
      cases pv with
      | vdict pd =>
        simp only [Option.map_eq_some'] at h
        obtain ⟨dsub2, hrec, hc'⟩ := h
        rw [← hc']
        simp only [fillVal, hrec]
        simp [lookup_insertD_self]
      | vstr s =>
        by_cases hs : s = ""
        · simp only [hs, if_pos rfl] at h
          injection h with h
          rw [← h]
          simp [fillVal, hcv]
        · simp only [hs, if_neg hs] at h
          cases h
      | vnone => cases h
      | vbool b => cases h
      | npBool b => cases h
      | vint n => cases h
      | vobj n => cases h
    | vnone => injection h with h; rw [← h]; simp [fillVal, hcv]
    | vbool b => injection h with h; rw [← h]; simp [fillVal, hcv]
    | npBool b => injection h with h; rw [← h]; simp [fillVal, hcv]
    | vint n => injection h with h; rw [← h]; simp [fillVal, hcv]
    | vstr s => injection h with h; rw [← h]; simp [fillVal, hcv]
    | vobj n => injection h with h; rw [← h]; simp [fillVal, hcv]

theorem fill_in_key_isSome (c : Dict) (k : String) (pv : Value) :
    (fill_in_key c k pv).isSome = fillKeyOK (lookupD c k) pv := by
  unfold fill_in_key fillKeyOK
  cases hcv : lookupD c k with
  | none => simp
  | some w =>
    cases w with
    | vdict dsub =>
      cases pv with
      | vdict pd => simp
      | vstr s => by_cases hs : s = "" <;> simp [hs]
      | vnone => simp
      | vbool b => simp
      | npBool b => simp
      | vint n => simp
      | vobj n => simp
    | vnone => simp
    | vbool b => simp
    | npBool b => simp
    | vint n => simp
    | vstr s => simp
    | vobj n => simp

theorem fillVal_isSome {cv : Option Value} {pv : Value}
    (h : fillKeyOK cv pv = true) : (fillVal cv pv).isSome = true := by
  cases cv with
  | none => simp [fillVal]
  | some w =>
    cases w with
    | vdict dsub =>
      cases pv with
      | vdict pd =>
        simp only [fillKeyOK] at h
        simpa [fillVal] using h
      | vstr s => simp [fillVal]
      | vnone => simp [fillVal]
      | vbool b => simp [fillVal]
      | npBool b => simp [fillVal]
      | vint n => simp [fillVal]
      | vobj n => simp [fillVal]
    | vnone => simp [fillVal]
    | vbool b => simp [fillVal]
    | npBool b => simp [fillVal]
    | vint n => simp [fillVal]
    | vstr s => simp [fillVal]
    | vobj n => simp [fillVal]

theorem hasKey_fill_in_key {c c' : Dict} {k : String} {pv : Value}
    (h : fill_in_key c k pv = some c') (j : String) :
    hasKeyD c' j = (decide (j = k) || hasKeyD c j) := by
  by_cases hj : j = k
  · subst hj
    have hOK : fillKeyOK (lookupD c j) pv = true := by
      rw [← fill_in_key_isSome, h]
      rfl
    have hl : hasKeyD c' j = true := by
      rw [hasKeyD_iff_lookup, fill_in_key_lookup_self h]
      exact fillVal_isSome hOK
    simp [hl]
  · rw [Bool.eq_iff_iff]
    simp only [Bool.or_eq_true_iff, decide_eq_true_iff]
    rw [hasKeyD_iff_lookup, hasKeyD_iff_lookup, fill_in_key_lookup_ne hj h]
    tauto

theorem hasKey_recursive_fill_in {c c' p : Dict}
    (h : recursive_fill_in c p = some c') (j : String) :
    hasKeyD c' j = (hasKeyD c j || decide (j ∈ keysD p)) := by
  induction p generalizing c with
  | nil =>
    rw [recursive_fill_in] at h
    injection h with h
    subst h
    simp [keysD]
  | cons kv rest ih =>
    obtain ⟨k, pv⟩ := kv
    rw [recursive_fill_in_cons] at h
    rcases Option.bind_eq_some.mp h with ⟨c₁, hstep, hrest⟩
    rw [ih hrest, hasKey_fill_in_key hstep]
    have hkeys : keysD ((k, pv) :: rest) = k :: keysD rest := rfl
    rw [hkeys]
    by_cases h1 : j = k <;> by_cases h2 : j ∈ keysD rest <;>
      simp [h1, h2, List.mem_cons]

theorem nodup_fill_in_key {c c' : Dict} {k : String} {pv : Value}
    (h : fill_in_key c k pv = some c') (hn : (keysD c).Nodup) :
    (keysD c').Nodup := by
  unfold fill_in_key at h
  cases hcv : lookupD c k with
  | none =>
    rw [hcv] at h
    injection h with h
    rw [← h]
    exact nodup_keysD_insertD pv hn
  | some w =>
    rw [hcv] at h
    cases w with
    | vdict dsub =>
      cases pv with
      | vdict pd =>
        simp only [Option.map_eq_some'] at h
        obtain ⟨dsub2, _, hc'⟩ := h
        rw [← hc']
        exact nodup_keysD_insertD _ hn
      | vstr s =>
        by_cases hs : s = ""
        · simp only [hs, if_pos rfl] at h
          injection h with h
          rw [← h]; exact hn
        · simp only [hs, if_neg hs] at h
          cases h
      | vnone => cases h
      | vbool b => cases h
      | npBool b => cases h
      | vint n => cases h
      | vobj n => cases h
    | vnone => injection h with h; rw [← h]; exact hn
    | vbool b => injection h with h; rw [← h]; exact hn
    | npBool b => injection h with h; rw [← h]; exact hn
    | vint n => injection h with h; rw [← h]; exact hn
    | vstr s => injection h with h; rw [← h]; exact hn
    | vobj n => injection h with h; rw [← h]; exact hn

theorem nodup_recursive_fill_in {c c' p : Dict}
    (h : recursive_fill_in c p = some c') (hn : (keysD c).Nodup) :
    (keysD c').Nodup := by
  induction p generalizing c with
  | nil =>
    rw [recursive_fill_in] at h
    injection h with h
    subst h
    exact hn
  | cons kv rest ih =>
    obtain ⟨k, pv⟩ := kv
    rw [recursive_fill_in_cons] at h
    rcases Option.bind_eq_some.mp h with ⟨c₁, hstep, hrest⟩
    exact ih hrest (nodup_fill_in_key hstep hn)

theorem recursive_fill_in_lookup_not_mem {c c' p : Dict} {j : String}
    (hj : j ∉ keysD p) (h : recursive_fill_in c p = some c') :
    lookupD c' j = lookupD c j := by
  induction p generalizing c with
  | nil =>
    rw [recursive_fill_in] at h
    injection h with h
    subst h
    rfl
  | cons kv rest ih =>
    obtain ⟨k, pv⟩ := kv
    have hkeys : keysD ((k, pv) :: rest) = k :: keysD rest := rfl
    rw [hkeys, List.mem_cons] at hj
    push_neg at hj
    rw [recursive_fill_in_cons] at h
    rcases Option.bind_eq_some.mp h with ⟨c₁, hstep, hrest⟩
    rw [ih hj.2 hrest, fill_in_key_lookup_ne hj.1 hstep]

theorem recursive_fill_in_lookup_mem {c c' p : Dict} {j : String} {pv : Value}
    (hp : (keysD p).Nodup) (h : recursive_fill_in c p = some c')
    (hj : lookupD p j = some pv) :
    lookupD c' j = fillVal (lookupD c j) pv := by
  induction p generalizing c with
  | nil => cases hj
  | cons kv rest ih =>
    obtain ⟨k, pv₁⟩ := kv
    have hp' : (k :: keysD rest).Nodup := hp
    rw [recursive_fill_in_cons] at h
    rcases Option.bind_eq_some.mp h with ⟨c₁, hstep, hrest⟩
    by_cases hk : k = j
    · subst hk
      simp only [lookupD, if_pos rfl] at hj
      injection hj with hj
      subst hj
      rw [recursive_fill_in_lookup_not_mem (List.nodup_cons.mp hp').1 hrest]
      exact fill_in_key_lookup_self hstep
    · simp only [lookupD, hk, if_false] at hj
      rw [ih hp'.of_cons hrest hj,
          fill_in_key_lookup_ne (fun he => hk he.symm) hstep]

theorem recursive_fill_in_isSome {c p : Dict} (hp : (keysD p).Nodup) :
    (recursive_fill_in c p).isSome = true ↔
      ∀ kv ∈ p, fillKeyOK (lookupD c kv.1) kv.2 = true := by
  induction p generalizing c with
  | nil => simp [recursive_fill_in]
  | cons kv₀ rest ih =>
    obtain ⟨k, pv⟩ := kv₀
    have hp' : (k :: keysD rest).Nodup := hp
    rw [recursive_fill_in_cons]
    constructor
    · intro hs
      rcases Option.isSome_iff_exists.mp hs with ⟨c', hc'⟩
      rcases Option.bind_eq_some.mp hc' with ⟨c₁, hstep, hrest⟩
      intro kv hm
      rcases List.mem_cons.mp hm with hh | ht
      · subst hh
        rw [← fill_in_key_isSome, hstep]
        rfl
      · have hne : kv.1 ≠ k := by
          intro he
          exact (List.nodup_cons.mp hp').1 (he ▸ (List.mem_map_of_mem Prod.fst ht))
        rw [← fill_in_key_lookup_ne hne hstep]
        exact (ih hp'.of_cons).mp (by rw [hrest]; rfl) kv ht
    · intro hall
      have hstep : (fill_in_key c k pv).isSome = true := by
        rw [fill_in_key_isSome]
        exact hall (k, pv) (List.mem_cons_self _ _)
      rcases Option.isSome_iff_exists.mp hstep with ⟨c₁, hc₁⟩
      rw [hc₁, Option.some_bind]
      apply (ih hp'.of_cons).mpr
      intro kv hm
      have hne : kv.1 ≠ k := by
        intro he
        exact (List.nodup_cons.mp hp').1 (he ▸ (List.mem_map_of_mem Prod.fst hm))
      rw [fill_in_key_lookup_ne hne hc₁]
      exact hall kv (List.mem_cons_of_mem _ hm)

/-! ### Harvest lemmas -/

theorem orO_none_right (a : Option Value) : orO a none = a := by
  cases a <;> rfl

theorem lookup_harvestAux {st : Dict} :
    (keysD st).Nodup →
    ∀ {acc : Dict}, (∀ i ∈ keysD st, hasKeyD acc i = false) → ∀ j,
    lookupD (harvestAux acc st) j =
      orO ((lookupD st j).bind (fun v => harvestVal j v)) (lookupD acc j) := by
  induction st with
  | nil =>
    intro _ acc _ j
    simp [harvestAux, lookupD, orO]
  | cons kv rest ih =>
    intro hst acc hdisj j
    obtain ⟨k, v⟩ := kv
    have hst' : (k :: keysD rest).Nodup := hst
    have hk_not_rest : k ∉ keysD rest := (List.nodup_cons.mp hst').1
    have hrestnone : lookupD rest k = none := by
      apply lookup_eq_none_of_not_hasKey
      cases hhh : hasKeyD rest k
      · rfl
      · exact absurd (hasKeyD_iff_mem_keys.mp hhh) hk_not_rest
    cases hv : harvestVal k v with
    | some w =>
      have hstep : harvestAux acc ((k, v) :: rest) =
          harvestAux (insertD acc k w) rest := by
        simp [harvestAux, hv]
      have hdisj' : ∀ i ∈ keysD rest, hasKeyD (insertD acc k w) i = false := by
        intro i hi
        rw [hasKey_insertD]
        have hne : i ≠ k := fun he => hk_not_rest (he ▸ hi)
        simp [hne, hdisj i (List.mem_cons_of_mem _ hi)]
      rw [hstep, ih hst'.of_cons hdisj' j]
      by_cases hjk : j = k
      · subst hjk
        rw [hrestnone]
        simp [lookupD, orO, hv, lookup_insertD_self]
      · have hne : k ≠ j := fun he => hjk he.symm
        simp only [lookupD, hne, if_false]
        rw [lookup_insertD_ne acc k j w hjk]
    | none =>
      have hstep : harvestAux acc ((k, v) :: rest) = harvestAux acc rest := by
        simp [harvestAux, hv]
      rw [hstep, ih hst'.of_cons (fun i hi => hdisj i (List.mem_cons_of_mem _ hi)) j]
      by_cases hjk : j = k
      · subst hjk
        rw [hrestnone]
        simp [lookupD, orO, hv]
      · have hne : k ≠ j := fun he => hjk he.symm
        simp only [lookupD, hne, if_false]

theorem lookup_harvest {st : Dict} (hst : (keysD st).Nodup) (j : String) :
    lookupD (harvest st) j = (lookupD st j).bind (fun v => harvestVal j v) := by
  have h := @lookup_harvestAux st hst [] (fun i _ => rfl) j
  rw [harvest, h]
  have : lookupD [] j = none := rfl
  rw [this, orO_none_right]

theorem nodup_harvestAux {st : Dict} :
    ∀ {acc : Dict}, (keysD acc).Nodup → (keysD (harvestAux acc st)).Nodup := by
  induction st with
  | nil => intro acc hacc; exact hacc
  | cons kv rest ih =>
    intro acc hacc
    obtain ⟨k, v⟩ := kv
    cases hv : harvestVal k v with
    | none =>
      have hstep : harvestAux acc ((k, v) :: rest) = harvestAux acc rest := by
        simp [harvestAux, hv]
      rw [hstep]
      exact ih hacc
    | some w =>
      have hstep : harvestAux acc ((k, v) :: rest) =
          harvestAux (insertD acc k w) rest := by
        simp [harvestAux, hv]
      rw [hstep]
      exact ih (nodup_keysD_insertD w hacc)

theorem nodup_harvest (st : Dict) : (keysD (harvest st)).Nodup :=
  nodup_harvestAux (List.nodup_nil)

/-! ### Parameter-binding lemmas -/

theorem bindArgs_error_of_find {pre fb : Dict} {avail : List String}
    {args : List String} {a : String}
    (h : args.find? (fun x => !(hasKeyD pre x || hasKeyD fb x)) = some a) :
    ∀ d fbview, bindArgs pre fb avail d fbview args =
      .error (.unresolvedParam a avail) := by
  induction args with
  | nil => cases h
  | cons arg rest ih =>
    intro d fbview
    by_cases hp : (hasKeyD pre arg || hasKeyD fb arg) = true
    · rw [List.find?_cons_of_neg _ (by simp [hp])] at h
      cases hpre : lookupD pre arg with
      | some v =>
        have hrec := ih h (dset d arg v) fbview
        simp only [bindArgs, hpre]
        exact hrec
      | none =>
        cases hfb : lookupD fb arg with
        | some v =>
          have hrec := ih h d (insertD fbview arg v)
          simp only [bindArgs, hpre, hfb]
          exact hrec
        | none =>
          exfalso
          rcases Bool.or_eq_true_iff.mp hp with h1 | h1
          · rw [hasKeyD_iff_lookup, hpre] at h1
            cases h1
          · rw [hasKeyD_iff_lookup, hfb] at h1
            cases h1
    · rw [List.find?_cons_of_pos _ (by simp [hp])] at h
      have ha : arg = a := by injection h
      subst ha
      have h1 : hasKeyD pre arg = false := by
        cases hh : hasKeyD pre arg
        · rfl
        · exact absurd (Bool.or_eq_true_iff.mpr (Or.inl hh)) hp
      have h2 : hasKeyD fb arg = false := by
        cases hh : hasKeyD fb arg
        · rfl
        · exact absurd (Bool.or_eq_true_iff.mpr (Or.inr hh)) hp
      simp only [bindArgs, lookup_eq_none_of_not_hasKey h1,
        lookup_eq_none_of_not_hasKey h2]

theorem bindArgs_ok_of_find_none {pre fb : Dict} {avail : List String}
    {args : List String}
    (h : args.find? (fun x => !(hasKeyD pre x || hasKeyD fb x)) = none) :
    ∀ d fbview, ∃ d' fbv',
      bindArgs pre fb avail d fbview args = .ok (d', fbv') := by
  induction args with
  | nil =>
    intro d fbview
    exact ⟨d, fbview, rfl⟩
  | cons arg rest ih =>
    intro d fbview
    have hp : (hasKeyD pre arg || hasKeyD fb arg) = true := by
      by_contra hc
      rw [List.find?_cons_of_pos _ (by simpa using hc)] at h
      cases h
    have hrest : rest.find? (fun x => !(hasKeyD pre x || hasKeyD fb x)) = none := by
      rw [List.find?_cons_of_neg _ (by simp [hp])] at h
      exact h
    cases hpre : lookupD pre arg with
    | some v =>
      obtain ⟨d', fbv', hok⟩ := ih hrest (dset d arg v) fbview
      exact ⟨d', fbv', by simp only [bindArgs, hpre]; exact hok⟩
    | none =>
      cases hfb : lookupD fb arg with
      | some v =>
        obtain ⟨d', fbv', hok⟩ := ih hrest d (insertD fbview arg v)
        exact ⟨d', fbv', by simp only [bindArgs, hpre, hfb]; exact hok⟩
      | none =>
        exfalso
        rcases Bool.or_eq_true_iff.mp hp with h1 | h1
        · rw [hasKeyD_iff_lookup, hpre] at h1
          cases h1
        · rw [hasKeyD_iff_lookup, hfb] at h1
          cases h1

theorem bindArgs_ok_elim {pre fb : Dict} {avail : List String} {arg : String}
    {args : List String} {d : DogmaticDict} {fbview : Dict}
    {r : DogmaticDict × Dict}
    (h : bindArgs pre fb avail d fbview (arg :: args) = .ok r) :
    (∃ v, lookupD pre arg = some v ∧
      bindArgs pre fb avail (dset d arg v) fbview args = .ok r) ∨
    (∃ v, lookupD pre arg = none ∧ lookupD fb arg = some v ∧
      bindArgs pre fb avail d (insertD fbview arg v) args = .ok r) := by
  cases hpre : lookupD pre arg with
  | some v =>
    refine Or.inl ⟨v, rfl, ?_⟩
    simpa only [bindArgs, hpre] using h
  | none =>
    cases hfb : lookupD fb arg with
    | some v =>
      refine Or.inr ⟨v, rfl, rfl, ?_⟩
      simpa only [bindArgs, hpre, hfb] using h
    | none =>
      rw [bindArgs, hpre, hfb] at h
      cases h

theorem bindArgs_ok_initialKeys {pre fb : Dict} {avail : List String}
    {args : List String} :
    ∀ {d : DogmaticDict} {fbview : Dict} {d' : DogmaticDict} {fbv' : Dict},
    bindArgs pre fb avail d fbview args = .ok (d', fbv') →
    d'.initialKeys = d.initialKeys := by
  induction args with
  | nil =>
    intro d fbview d' fbv' h
    rw [bindArgs] at h
    injection h with h
    injection h with h1 h2
    subst h1
    subst h2
    rfl
  | cons arg rest ih =>
    intro d fbview d' fbv' h
    rcases bindArgs_ok_elim h with ⟨v, _, hrec⟩ | ⟨v, _, _, hrec⟩
    · rw [ih hrec, dset_initialKeys]
    · exact ih hrec

theorem bindArgs_ok_fallback {pre fb : Dict} {avail : List String}
    {args : List String} :
    ∀ {d : DogmaticDict} {fbview : Dict} {d' : DogmaticDict} {fbv' : Dict},
    bindArgs pre fb avail d fbview args = .ok (d', fbv') →
    d'.fallback = d.fallback := by
  induction args with
  | nil =>
    intro d fbview d' fbv' h
    rw [bindArgs] at h
    injection h with h
    injection h with h1 h2
    subst h1
    subst h2
    rfl
  | cons arg rest ih =>
    intro d fbview d' fbv' h
    rcases bindArgs_ok_elim h with ⟨v, _, hrec⟩ | ⟨v, _, _, hrec⟩
    · rw [ih hrec, dset_fallback]
    · exact ih hrec

theorem bindArgs_ok_store_auth {pre fb : Dict} {avail : List String}
    {args : List String} {j : String} :
    ∀ {d : DogmaticDict} {fbview : Dict} {d' : DogmaticDict} {fbv' : Dict},
    bindArgs pre fb avail d fbview args = .ok (d', fbv') →
    j ∈ d.initialKeys → lookupD d'.store j = lookupD d.store j := by
  induction args with
  | nil =>
    intro d fbview d' fbv' h _
    rw [bindArgs] at h
    injection h with h
    injection h with h1 h2
    subst h1
    subst h2
    rfl
  | cons arg rest ih =>
    intro d fbview d' fbv' h hj
    rcases bindArgs_ok_elim h with ⟨v, _, hrec⟩ | ⟨v, _, _, hrec⟩
    · rw [ih hrec (by rw [dset_initialKeys]; exact hj),
        lookup_dset_store_auth v hj]
    · exact ih hrec hj

theorem bindArgs_ok_store_not_pre {pre fb : Dict} {avail : List String}
    {args : List String} {j : String} (hpre : hasKeyD pre j = false) :
    ∀ {d : DogmaticDict} {fbview : Dict} {d' : DogmaticDict} {fbv' : Dict},
    bindArgs pre fb avail d fbview args = .ok (d', fbv') →
    lookupD d'.store j = lookupD d.store j := by
  induction args with
  | nil =>
    intro d fbview d' fbv' h
    rw [bindArgs] at h
    injection h with h
    injection h with h1 h2
    subst h1
    subst h2
    rfl
  | cons arg rest ih =>
    intro d fbview d' fbv' h
    rcases bindArgs_ok_elim h with ⟨v, hv, hrec⟩ | ⟨v, _, _, hrec⟩
    · have hne : j ≠ arg := by
        intro he
        rw [he] at hpre
        rw [lookup_eq_none_of_not_hasKey hpre] at hv
        cases hv
      rw [ih hrec, lookup_dset_store_ne v hne]
    · exact ih hrec

theorem bindArgs_ok_wfInit {pre fb : Dict} {avail : List String}
    {args : List String} :
    ∀ {d : DogmaticDict} {fbview : Dict} {d' : DogmaticDict} {fbv' : Dict},
    bindArgs pre fb avail d fbview args = .ok (d', fbv') →
    wfInit d → wfInit d' := by
  induction args with
  | nil =>
    intro d fbview d' fbv' h hw
    rw [bindArgs] at h
    injection h with h
    injection h with h1 h2
    subst h1
    subst h2
    exact hw
  | cons arg rest ih =>
    intro d fbview d' fbv' h hw
    rcases bindArgs_ok_elim h with ⟨v, _, hrec⟩ | ⟨v, _, _, hrec⟩
    · exact ih hrec (wfInit_dset arg v hw)
    · exact ih hrec hw

theorem bindArgs_ok_nodup_store {pre fb : Dict} {avail : List String}
    {args : List String} :
    ∀ {d : DogmaticDict} {fbview : Dict} {d' : DogmaticDict} {fbv' : Dict},
    bindArgs pre fb avail d fbview args = .ok (d', fbv') →
    (keysD d.store).Nodup → (keysD d'.store).Nodup := by
  induction args with
  | nil =>
    intro d fbview d' fbv' h hn
    rw [bindArgs] at h
    injection h with h
    injection h with h1 h2
    subst h1
    subst h2
    exact hn
  | cons arg rest ih =>
    intro d fbview d' fbv' h hn
    rcases bindArgs_ok_elim h with ⟨v, _, hrec⟩ | ⟨v, _, _, hrec⟩
    · exact ih hrec (nodup_dset_store arg v hn)
    · exact ih hrec hn

theorem bindArgs_ok_fbview_mono {pre fb : Dict} {avail : List String}
    {args : List String} {j : String} :
    ∀ {d : DogmaticDict} {fbview : Dict} {d' : DogmaticDict} {fbv' : Dict},
    bindArgs pre fb avail d fbview args = .ok (d', fbv') →
    hasKeyD fbview j = true → hasKeyD fbv' j = true := by
  induction args with
  | nil =>
    intro d fbview d' fbv' h hj
    rw [bindArgs] at h
    injection h with h
    injection h with h1 h2
    subst h1
    subst h2
    exact hj
  | cons arg rest ih =>
    intro d fbview d' fbv' h hj
    rcases bindArgs_ok_elim h with ⟨v, _, hrec⟩ | ⟨v, _, _, hrec⟩
    · exact ih hrec hj
    · refine ih hrec ?_
      rw [hasKey_insertD]
      simp [hj]

theorem bindArgs_ok_fbview_of_arg {pre fb : Dict} {avail : List String}
    {args : List String} {j : String} (hpre : lookupD pre j = none)
    (hfb : hasKeyD fb j = true) :
    ∀ {d : DogmaticDict} {fbview : Dict} {d' : DogmaticDict} {fbv' : Dict},
    bindArgs pre fb avail d fbview args = .ok (d', fbv') →
    j ∈ args → hasKeyD fbv' j = true := by
  induction args with
  | nil =>
    intro d fbview d' fbv' _ hj
    cases hj
  | cons arg rest ih =>
    intro d fbview d' fbv' h hj
    rcases List.mem_cons.mp hj with hh | ht
    · subst hh
      rcases bindArgs_ok_elim h with ⟨v, hv, hrec⟩ | ⟨v, _, _, hrec⟩
      · rw [hv] at hpre
        cases hpre
      · refine bindArgs_ok_fbview_mono hrec ?_
        rw [hasKey_insertD]
        simp
    · rcases bindArgs_ok_elim h with ⟨v, _, hrec⟩ | ⟨v, _, _, hrec⟩
      · exact ih hrec ht
      · exact ih hrec ht

theorem bindArgs_ok_store_bound_preserve {pre fb : Dict} {avail : List String}
    {args : List String} {p : String} {v : Value}
    (hpv : lookupD pre p = some v) :
    ∀ {d : DogmaticDict} {fbview : Dict} {d' : DogmaticDict} {fbv' : Dict},
    bindArgs pre fb avail d fbview args = .ok (d', fbv') →
    p ∉ d.initialKeys → lookupD d.store p = some v →
    lookupD d'.store p = some v := by
  induction args with
  | nil =>
    intro d fbview d' fbv' h _ hs
    rw [bindArgs] at h
    injection h with h
    injection h with h1 h2
    subst h1
    exact hs
  | cons arg rest ih =>
    intro d fbview d' fbv' h hinit hs
    rcases bindArgs_ok_elim h with ⟨w, hw, hrec⟩ | ⟨w, _, _, hrec⟩
    · by_cases harg : arg = p
      · subst harg
        rw [hw] at hpv
        injection hpv with hpv
        subst hpv
        refine ih hrec (by rw [dset_initialKeys]; exact hinit) ?_
        rw [dset_store_of_not_auth w hinit]
        exact lookup_insertD_self _ _ _
      · refine ih hrec (by rw [dset_initialKeys]; exact hinit) ?_
        rw [lookup_dset_store_ne w (fun he => harg he.symm)]
        exact hs
    · exact ih hrec hinit hs

theorem bindArgs_ok_store_bound {pre fb : Dict} {avail : List String}
    {args : List String} {p : String} {v : Value}
    (hpv : lookupD pre p = some v) :
    ∀ {d : DogmaticDict} {fbview : Dict} {d' : DogmaticDict} {fbv' : Dict},
    bindArgs pre fb avail d fbview args = .ok (d', fbv') →
    p ∈ args → p ∉ d.initialKeys →
    lookupD d'.store p = some v := by
  induction args with
  | nil =>
    intro d fbview d' fbv' _ hp
    cases hp
  | cons arg rest ih =>
    intro d fbview d' fbv' h hp hinit
    rcases List.mem_cons.mp hp with hh | ht
    · subst hh
      rcases bindArgs_ok_elim h with ⟨w, hw, hrec⟩ | ⟨w, hw, _, hrec⟩
      · rw [hw] at hpv
        injection hpv with hpv
        subst hpv
        refine bindArgs_ok_store_bound_preserve hw hrec
          (by rw [dset_initialKeys]; exact hinit) ?_
        rw [dset_store_of_not_auth w hinit]
        exact lookup_insertD_self _ _ _
      · rw [hw] at hpv
        cases hpv
    · rcases bindArgs_ok_elim h with ⟨w, hw, hrec⟩ | ⟨w, _, _, hrec⟩
      · by_cases harg : arg = p
        · subst harg
          rw [hw] at hpv
          injection hpv with hpv
          subst hpv
          refine bindArgs_ok_store_bound_preserve hw hrec
            (by rw [dset_initialKeys]; exact hinit) ?_
          rw [dset_store_of_not_auth w hinit]
          exact lookup_insertD_self _ _ _
        · exact ih hrec ht (by rw [dset_initialKeys]; exact hinit)
      · exact ih hrec ht hinit

theorem bindArgs_ok_fbview_not_pre {pre fb : Dict} {avail : List String}
    {args : List String} {p : String} {v : Value}
    (hpv : lookupD pre p = some v) :
    ∀ {d : DogmaticDict} {fbview : Dict} {d' : DogmaticDict} {fbv' : Dict},
    bindArgs pre fb avail d fbview args = .ok (d', fbv') →
    hasKeyD fbview p = false → hasKeyD fbv' p = false := by
  induction args with
  | nil =>
    intro d fbview d' fbv' h hv
    rw [bindArgs] at h
    injection h with h
    injection h with h1 h2
    subst h2
    exact hv
  | cons arg rest ih =>
    intro d fbview d' fbv' h hv
    rcases bindArgs_ok_elim h with ⟨w, hw, hrec⟩ | ⟨w, hw, _, hrec⟩
    · exact ih hrec hv
    · have harg : arg ≠ p := by
        intro he
        rw [he, hpv] at hw
        cases hw
      refine ih hrec ?_
      rw [hasKey_insertD]
      have : ¬ p = arg := fun he => harg he.symm
      simp [hv, this]

theorem bindArgs_congr {pre₁ pre₂ fb : Dict} {av₁ av₂ : List String}
    (hpp : ∀ x, lookupD pre₁ x = lookupD pre₂ x) {args : List String} :
    ∀ {d : DogmaticDict} {fbview : Dict} {r : DogmaticDict × Dict},
    bindArgs pre₁ fb av₁ d fbview args = .ok r →
    bindArgs pre₂ fb av₂ d fbview args = .ok r := by
  induction args with
  | nil =>
    intro d fbview r h
    rw [bindArgs] at h
    injection h with h
    rw [bindArgs, h]
  | cons arg rest ih =>
    intro d fbview r h
    rcases bindArgs_ok_elim h with ⟨v, hv, hrec⟩ | ⟨v, hv, hfb, hrec⟩
    · rw [bindArgs, ← hpp arg, hv]
      exact ih hrec
    · rw [bindArgs, ← hpp arg, hv, hfb]
      exact ih hrec

/-! ### Evaluation-pipeline elimination and introduction -/

theorem seedScope_ok_elim {sc : ConfigScope} {fixedD preD fbD : Dict}
    {d1 : DogmaticDict} (h : seedScope sc fixedD preD fbD = .ok d1) :
    ∃ d0 fbv,
      bindArgs preD fbD (availableEntries preD fbD) (dogmatize fixedD) []
        sc.args = .ok (d0, fbv) ∧
      d1 = { d0 with fallback := fbv } := by
  unfold seedScope at h
  cases hb : bindArgs preD fbD (availableEntries preD fbD) (dogmatize fixedD)
      [] sc.args with
  | error e => rw [hb] at h; cases h
  | ok r =>
    rw [hb] at h
    obtain ⟨d0, fbv⟩ := r
    injection h with h
    exact ⟨d0, fbv, rfl, h.symm⟩

theorem scopeCall_ok_elim {sc : ConfigScope} {fixed preset fallback : Option Dict}
    {s : ConfigSummary} (h : scopeCall sc fixed preset fallback = .ok s) :
    ∃ d1 d2 store2,
      seedScope sc (fixed.getD []) (preset.getD []) (fallback.getD []) = .ok d1 ∧
      execBody d1 sc.body = some d2 ∧
      recursive_fill_in d2.store (preset.getD []) = some store2 ∧
      s = { result := harvest store2
            added_values := revelation d2
            modified := d2.modified
            typechanges := d2.typechanges
            ignored_fallback_writes := d2.ignored_fallback_writes } := by
  unfold scopeCall at h
  cases h1 : seedScope sc (fixed.getD []) (preset.getD []) (fallback.getD []) with
  | error e =>
    rw [h1] at h
    cases h
  | ok d1 =>
    rw [h1] at h
    dsimp only at h
    cases h2 : execBody d1 sc.body with
    | none =>
      rw [h2] at h
      cases h
    | some d2 =>
      rw [h2] at h
      dsimp only at h
      cases h3 : recursive_fill_in d2.store (preset.getD []) with
      | none =>
        rw [h3] at h
        cases h
      | some store2 =>
        rw [h3] at h
        dsimp only at h
        injection h with h
        exact ⟨d1, d2, store2, rfl, h2, h3, h.symm⟩

theorem scopeCall_ok_intro (sc : ConfigScope)
    (fixed preset fallback : Option Dict) {d1 d2 : DogmaticDict}
    {store2 : Dict}
    (h1 : seedScope sc (fixed.getD []) (preset.getD []) (fallback.getD []) = .ok d1)
    (h2 : execBody d1 sc.body = some d2)
    (h3 : recursive_fill_in d2.store (preset.getD []) = some store2) :
    scopeCall sc fixed preset fallback =
      .ok { result := harvest store2
            added_values := revelation d2
            modified := d2.modified
            typechanges := d2.typechanges
            ignored_fallback_writes := d2.ignored_fallback_writes } := by
  unfold scopeCall
  rw [h1]
  dsimp only
  rw [h2]
  dsimp only
  rw [h3]

/-! ### Dedent lemmas -/

theorem dedent_line_cons {c i : Char} {cs is2 : List Char} (h : c = i) :
    dedent_line (c :: cs) (i :: is2) = dedent_line cs is2 := by
  subst h
  unfold dedent_line
  simp only [mismatchIdx, ne_eq, not_true_eq_false, if_false]
  cases hm : mismatchIdx cs is2 with
  | some j => simp [hm]
  | none => simp [hm]

theorem dedent_line_eq_drop (l ind : List Char) :
    dedent_line l ind = l.drop (commonPrefixLen l ind) := by
  induction l generalizing ind with
  | nil =>
    cases ind <;> simp [dedent_line, mismatchIdx, commonPrefixLen]
  | cons c cs ih =>
    cases ind with
    | nil => simp [dedent_line, mismatchIdx, commonPrefixLen]
    | cons i is2 =>
      by_cases h : c = i
      · rw [dedent_line_cons h, ih is2]
        subst h
        simp [commonPrefixLen]
      · simp [dedent_line, mismatchIdx, h, commonPrefixLen]

theorem commonPrefixLen_of_take {l ind : List Char}
    (h : l.take ind.length = ind) : commonPrefixLen l ind = ind.length := by
  induction ind generalizing l with
  | nil => cases l <;> simp [commonPrefixLen]
  | cons i is2 ih =>
    cases l with
    | nil => simp at h
    | cons c cs =>
      simp only [List.length_cons, List.take_succ_cons] at h
      injection h with h1 h2
      subst h1
      simp [commonPrefixLen, ih h2]

/-! ### Claim theorems -/

/-- C9, counterexample: on the body `"    a = 1\n  # c"` the indent is the
four spaces of the first code line, but the comment line `"  # c"` does not
start with that indent, and `dedent_line` removes only the two matching
characters — not the four-character indent prefix the claim asserts is
removed from every line. -/
theorem c9_counterexample :
    findIndent (splitLines ("    a = 1\n  # c").data) = ("    ").data ∧
    dedent_function_body ("    a = 1\n  # c").data ≠
      joinLines ((splitLines ("    a = 1\n  # c").data).map
        (fun l => l.drop
          (findIndent (splitLines ("    a = 1\n  # c").data)).length)) ∧
    dedent_function_body ("    a = 1\n  # c").data = ("a = 1\n# c").data := by
  refine ⟨by decide, by decide, by decide⟩

/-- C9 (amended): `dedent_function_body` determines the indent as the
leading whitespace of the first non-blank, non-comment line and removes from
every line (blank and comment lines included) the longest common prefix of
that line and the indent; in particular, a line that actually starts with
the indent has exactly the indent removed. -/
theorem c9_dedent_strips_common_prefix (body : List Char) :
    dedent_function_body body =
      joinLines ((splitLines body).map
        (fun l => l.drop (commonPrefixLen l (findIndent (splitLines body))))) ∧
    ∀ l ∈ splitLines body,
      l.take (findIndent (splitLines body)).length = findIndent (splitLines body) →
      dedent_line l (findIndent (splitLines body)) =
        l.drop (findIndent (splitLines body)).length := by
  constructor
  · unfold dedent_function_body
    congr 1
    apply List.map_congr_left
    intro l _
    exact dedent_line_eq_drop l _
  · intro l _ h
    rw [dedent_line_eq_drop, commonPrefixLen_of_take h]

/-- C9, witness: the amended theorem evaluated on a concrete two-line body
whose second line starts with the indent. -/
theorem c9_dedent_witness :
    dedent_function_body ("  x = 1\n  y = 2").data =
      joinLines ((splitLines ("  x = 1\n  y = 2").data).map
        (fun l => l.drop (commonPrefixLen l
          (findIndent (splitLines ("  x = 1\n  y = 2").data))))) ∧
    dedent_line ("  y = 2").data
        (findIndent (splitLines ("  x = 1\n  y = 2").data)) =
      ("  y = 2").data.drop
        (findIndent (splitLines ("  x = 1\n  y = 2").data)).length := by
  have h := c9_dedent_strips_common_prefix (("  x = 1\n  y = 2").data)
  exact ⟨h.1, h.2 (("  y = 2").data) (by decide) (by decide)⟩

/-- C5: if some declared parameter is absent from both `preset` and
`fallback`, `ConfigScope.__call__` raises a `KeyError` naming a missing
parameter together with the available options (the union of the `preset`
and `fallback` key names) — and it does so before executing the body: the
same error results whatever the body is. -/
theorem c5_unresolved_param (args : List String) (fixed preset fallback : Option Dict)
    (p : String) (hp : p ∈ args)
    (hp1 : hasKeyD (preset.getD []) p = false)
    (hp2 : hasKeyD (fallback.getD []) p = false) :
    ∃ a, a ∈ args ∧
      hasKeyD (preset.getD []) a = false ∧
      hasKeyD (fallback.getD []) a = false ∧
      (∀ body2 : List Stmt,
        scopeCall ⟨args, body2⟩ fixed preset fallback =
          .error (.unresolvedParam a
            (availableEntries (preset.getD []) (fallback.getD [])))) ∧
      (∀ x, x ∈ availableEntries (preset.getD []) (fallback.getD []) ↔
        x ∈ keysD (preset.getD []) ∨ x ∈ keysD (fallback.getD [])) := by
  have hsome : (args.find?
      (fun x => !(hasKeyD (preset.getD []) x || hasKeyD (fallback.getD []) x))).isSome := by
    rw [List.find?_isSome]
    exact ⟨p, hp, by simp [hp1, hp2]⟩
  obtain ⟨a, ha⟩ := Option.isSome_iff_exists.mp hsome
  have hpa := List.find?_some ha
  have hmem : a ∈ args := List.mem_of_find?_eq_some ha
  have h1 : hasKeyD (preset.getD []) a = false := by
    cases hh : hasKeyD (preset.getD []) a
    · rfl
    · rw [hh] at hpa
      simp at hpa
  have h2 : hasKeyD (fallback.getD []) a = false := by
    cases hh : hasKeyD (fallback.getD []) a
    · rfl
    · rw [hh] at hpa
      simp at hpa
  refine ⟨a, hmem, h1, h2, ?_, ?_⟩
  · intro body2
    have hseed : seedScope ⟨args, body2⟩ (fixed.getD []) (preset.getD [])
        (fallback.getD []) = .error (.unresolvedParam a
          (availableEntries (preset.getD []) (fallback.getD []))) := by
      unfold seedScope
      rw [bindArgs_error_of_find ha]
    unfold scopeCall
    rw [hseed]
  · intro x
    simp [availableEntries, List.mem_dedup, List.mem_append]

/-- C5, witness: a scope declaring parameter `zz` with `preset = {a: 1}` and
`fallback = {b: 2}`. -/
theorem c5_unresolved_param_witness :
    ∃ a, a ∈ ["zz"] ∧
      hasKeyD ((some [("a", Value.vint 1)] : Option Dict).getD []) a = false ∧
      hasKeyD ((some [("b", Value.vint 2)] : Option Dict).getD []) a = false ∧
      (∀ body2 : List Stmt,
        scopeCall ⟨["zz"], body2⟩ (some []) (some [("a", Value.vint 1)])
            (some [("b", Value.vint 2)]) =
          .error (.unresolvedParam a
            (availableEntries ((some [("a", Value.vint 1)] : Option Dict).getD [])
              ((some [("b", Value.vint 2)] : Option Dict).getD [])))) ∧
      (∀ x, x ∈ availableEntries ((some [("a", Value.vint 1)] : Option Dict).getD [])
          ((some [("b", Value.vint 2)] : Option Dict).getD []) ↔
        x ∈ keysD ((some [("a", Value.vint 1)] : Option Dict).getD []) ∨
        x ∈ keysD ((some [("b", Value.vint 2)] : Option Dict).getD [])) :=
  c5_unresolved_param ["zz"] (some []) (some [("a", Value.vint 1)])
    (some [("b", Value.vint 2)]) "zz" (by decide) (by decide) (by decide)

theorem validateEntry_ok_iff (conf : Dict) (k : String) (v : Value) :
    (∃ c, validateEntry conf k v = .ok c) ↔
      isValidIdent k = true ∧ jsonSerializable (npShim v) = true := by
  unfold validateEntry
  by_cases hk : isValidIdent k = true
  · simp only [hk, not_true_eq_false, if_false]
    cases v with
    | npBool b => simp [npShim, jsonSerializable]
    | vnone => simp [npShim, jsonSerializable]
    | vbool b => simp [npShim, jsonSerializable]
    | vint n => simp [npShim, jsonSerializable]
    | vstr s2 => simp [npShim, jsonSerializable]
    | vobj n => simp [npShim, jsonSerializable]
    | vdict entries =>
      by_cases hs : jsonSerializable (Value.vdict entries) = true
      · simp [npShim, hs]
      · simp [npShim, hs]
  · simp [hk]

theorem validateEntry_error_invalidKey {conf : Dict} {k : String} {v : Value}
    {k2 : String} (h : validateEntry conf k v = .error (.invalidKey k2)) :
    k2 = k ∧ isValidIdent k = false := by
  unfold validateEntry at h
  by_cases hk : isValidIdent k = true
  · exfalso
    simp only [hk, not_true_eq_false, if_false] at h
    cases v with
    | npBool b => cases h
    | vnone => simp [jsonSerializable] at h
    | vbool b => simp [jsonSerializable] at h
    | vint n => simp [jsonSerializable] at h
    | vstr s2 => simp [jsonSerializable] at h
    | vobj n => simp [jsonSerializable] at h
    | vdict entries =>
      by_cases hs : jsonSerializable (Value.vdict entries) = true
      · simp [hs] at h
      · simp [hs] at h
  · simp only [hk, not_false_eq_true, if_true] at h
    injection h with h
    injection h with h
    exact ⟨h.symm, by simpa using hk⟩

theorem validateEntry_error_invalidValue {conf : Dict} {k : String} {v : Value}
    {k2 : String} (h : validateEntry conf k v = .error (.invalidValue k2)) :
    k2 = k ∧ isValidIdent k = true ∧ jsonSerializable (npShim v) = false := by
  unfold validateEntry at h
  by_cases hk : isValidIdent k = true
  · simp only [hk, not_true_eq_false, if_false] at h
    cases v with
    | npBool b => cases h
    | vnone => simp [jsonSerializable] at h
    | vbool b => simp [jsonSerializable] at h
    | vint n => simp [jsonSerializable] at h
    | vstr s2 => simp [jsonSerializable] at h
    | vobj n =>
      refine ⟨?_, hk, by simp [npShim, jsonSerializable]⟩
      simp [jsonSerializable] at h
      exact h.symm
    | vdict entries =>
      by_cases hs : jsonSerializable (Value.vdict entries) = true
      · simp [hs] at h
      · simp only [hs, Bool.false_eq_true, if_false] at h
        injection h with h
        injection h with h
        exact ⟨h.symm, hk, by simpa [npShim] using hs⟩
  · exfalso
    simp only [hk, not_false_eq_true, if_true] at h
    injection h with h
    cases h
  -- note: `vobj` values are never serializable, so that arm reports the key
  -- directly

theorem configDictInitAux_ok_iff {d : List (String × Value)} :
    ∀ {conf : Dict}, (∃ c, configDictInitAux conf d = .ok c) ↔
      ∀ kv ∈ d, isValidIdent kv.1 = true ∧ jsonSerializable (npShim kv.2) = true := by
  induction d with
  | nil =>
    intro conf
    simp [configDictInitAux]
  | cons kv rest ih =>
    intro conf
    obtain ⟨k, v⟩ := kv
    constructor
    · rintro ⟨c, hc⟩
      rw [configDictInitAux] at hc
      cases hv : validateEntry conf k v with
      | error e =>
        rw [hv] at hc
        cases hc
      | ok conf2 =>
        rw [hv] at hc
        intro kv2 hm
        rcases List.mem_cons.mp hm with hh | ht
        · subst hh
          exact (validateEntry_ok_iff conf k v).mp ⟨conf2, hv⟩
        · exact ih.mp ⟨c, hc⟩ kv2 ht
    · intro hall
      obtain ⟨conf2, hv⟩ := (validateEntry_ok_iff conf k v).mpr
        (hall (k, v) (List.mem_cons_self _ _))
      obtain ⟨c, hc⟩ := (@ih conf2).mpr
        (fun kv2 hm => hall kv2 (List.mem_cons_of_mem _ hm))
      refine ⟨c, ?_⟩
      rw [configDictInitAux, hv]
      exact hc

theorem configDictInitAux_error_key {d : List (String × Value)} :
    ∀ {conf : Dict} {k2 : String},
    configDictInitAux conf d = .error (.invalidKey k2) →
    k2 ∈ keysD d ∧ isValidIdent k2 = false := by
  induction d with
  | nil =>
    intro conf k2 h
    cases h
  | cons kv rest ih =>
    intro conf k2 h
    obtain ⟨k, v⟩ := kv
    rw [configDictInitAux] at h
    cases hv : validateEntry conf k v with
    | error e =>
      rw [hv] at h
      injection h with h
      subst h
      obtain ⟨he, hbad⟩ := validateEntry_error_invalidKey hv
      subst he
      exact ⟨List.mem_cons_self _ _, hbad⟩
    | ok conf2 =>
      rw [hv] at h
      obtain ⟨hm, hbad⟩ := ih h
      exact ⟨List.mem_cons_of_mem _ hm, hbad⟩

theorem configDictInitAux_error_value {d : List (String × Value)} :
    ∀ {conf : Dict} {k2 : String},
    configDictInitAux conf d = .error (.invalidValue k2) →
    ∃ v, (k2, v) ∈ d ∧ isValidIdent k2 = true ∧
      jsonSerializable (npShim v) = false := by
  induction d with
  | nil =>
    intro conf k2 h
    cases h
  | cons kv rest ih =>
    intro conf k2 h
    obtain ⟨k, v⟩ := kv
    rw [configDictInitAux] at h
    cases hv : validateEntry conf k v with
    | error e =>
      rw [hv] at h
      injection h with h
      subst h
      obtain ⟨he, hgood, hbad⟩ := validateEntry_error_invalidValue hv
      subst he
      exact ⟨v, List.mem_cons_self _ _, hgood, hbad⟩
    | ok conf2 =>
      rw [hv] at h
      obtain ⟨v2, hm, hgood, hbad⟩ := ih h
      exact ⟨v2, List.mem_cons_of_mem _ hm, hgood, hbad⟩

/-- C6: `ConfigDict.__init__` succeeds exactly when every key is an
identifier-shaped string that does not start with `'_'` and every value is
JSON-serializable after converting a top-level `numpy.bool_` to a plain
bool; a key failure raises a `KeyError` naming the offending key, and a
value failure raises a `ValueError` naming the key of the offending
value. -/
theorem c6_configdict_validation (d : List (String × Value)) :
    ((∃ c, configDictInit d = .ok c) ↔
      ∀ kv ∈ d, isValidIdent kv.1 = true ∧
        jsonSerializable (npShim kv.2) = true) ∧
    (∀ k, configDictInit d = .error (.invalidKey k) →
      k ∈ keysD d ∧ isValidIdent k = false) ∧
    (∀ k, configDictInit d = .error (.invalidValue k) →
      ∃ v, (k, v) ∈ d ∧ isValidIdent k = true ∧
        jsonSerializable (npShim v) = false) := by
  refine ⟨configDictInitAux_ok_iff, ?_, ?_⟩
  · intro k h
    exact configDictInitAux_error_key h
  · intro k h
    exact configDictInitAux_error_value h

/-- C6, witness: construction fails on the private key `_p`, fails on a
non-serializable value, and succeeds on a valid mapping with a numpy-bool
value. -/
theorem c6_configdict_validation_witness :
    ((("_p" : String) ∈ keysD [("_p", Value.vint 1)] ∧
      isValidIdent "_p" = false) ∧
     (∃ v, (("p", v) ∈ ([("p", Value.vobj 0)] : List (String × Value))) ∧
       isValidIdent "p" = true ∧ jsonSerializable (npShim v) = false)) ∧
    (∃ c, configDictInit [("q", Value.npBool true)] = .ok c) := by
  refine ⟨⟨?_, ?_⟩, ?_⟩
  · exact (c6_configdict_validation [("_p", Value.vint 1)]).2.1 "_p" rfl
  · exact (c6_configdict_validation [("p", Value.vobj 0)]).2.2 "p" rfl
  · exact (c6_configdict_validation [("q", Value.npBool true)]).1.mpr
      (by intro kv hm; rcases List.mem_cons.mp hm with hh | hh
          · subst hh; exact ⟨by decide, by decide⟩
          · cases hh)

/-- C10: `ConfigDict.__call__` declares `preset` as optional but only
defaults `fixed`; with `preset` omitted (`None`), `result.update(preset)`
raises a `TypeError` for every constructed `ConfigDict`.
`ConfigScope.__call__`, by contrast, defaults both `preset` and `fallback`
to empty mappings: with no declared parameters and a body that executes, a
call with both omitted succeeds. -/
theorem c10_configdict_requires_preset (conf : Dict)
    (fixed fallback : Option Dict) (sc : ConfigScope) (hargs : sc.args = [])
    {d2 : DogmaticDict}
    (hexec : execBody (dogmatize (fixed.getD [])) sc.body = some d2) :
    dictCall conf fixed none fallback = .error .noneTypeUpdate ∧
    scopeCall sc fixed none none =
      .ok { result := harvest d2.store
            added_values := revelation d2
            modified := d2.modified
            typechanges := d2.typechanges
            ignored_fallback_writes := d2.ignored_fallback_writes } := by
  constructor
  · rfl
  · have h1 : seedScope sc (fixed.getD []) ((none : Option Dict).getD [])
        ((none : Option Dict).getD []) = .ok (dogmatize (fixed.getD [])) := by
      unfold seedScope
      rw [hargs]
      rfl
    have h3 : recursive_fill_in d2.store [] = some d2.store := by
      rw [recursive_fill_in]
    exact scopeCall_ok_intro sc fixed none none h1 hexec h3

/-- C10, witness: a literal entry called without a preset errors; an
argumentless scope called with neither preset nor fallback succeeds. -/
theorem c10_configdict_requires_preset_witness :
    dictCall [("a", Value.vint 1)] (some [("f", Value.vint 7)]) none none =
      .error .noneTypeUpdate ∧
    scopeCall ⟨[], [Stmt.assign "b" (Expr.lit (Value.vint 2))]⟩
        (some [("f", Value.vint 7)]) none none =
      .ok { result := [("f", Value.vint 7), ("b", Value.vint 2)]
            added_values := ["b"]
            modified := []
            typechanges := []
            ignored_fallback_writes := [] } := by
  have h := c10_configdict_requires_preset [("a", Value.vint 1)]
    (some [("f", Value.vint 7)]) none
    ⟨[], [Stmt.assign "b" (Expr.lit (Value.vint 2))]⟩ rfl rfl
  exact ⟨h.1, h.2⟩

/-- C8: the chain evaluator on an empty sequence of entries returns the
starting preset (empty if none) updated with `fixed` — `fixed` winning on
overlapping keys — together with an empty summary list. -/
theorem c8_empty_chain (fixed preset fallback : Option Dict)
    (hf : (keysD (fixed.getD [])).Nodup) :
    chain_evaluate_config_scopes [] fixed preset fallback =
      .ok (updateD (preset.getD []) (fixed.getD []), []) ∧
    ∀ k, lookupD (updateD (preset.getD []) (fixed.getD [])) k =
      match lookupD (fixed.getD []) k with
      | some v => some v
      | none => lookupD (preset.getD []) k := by
  constructor
  · rfl
  · intro k
    exact lookup_updateD hf k

/-- C8, witness: the empty chain over `fixed = {x: 1}` and a starting
preset `{x: 0, y: 2}`; the fixed value wins at `x`. -/
theorem c8_empty_chain_witness :
    chain_evaluate_config_scopes [] (some [("x", Value.vint 1)])
        (some [("x", Value.vint 0), ("y", Value.vint 2)]) none =
      .ok (updateD [("x", Value.vint 0), ("y", Value.vint 2)]
            [("x", Value.vint 1)], []) ∧
    lookupD (updateD [("x", Value.vint 0), ("y", Value.vint 2)]
        [("x", Value.vint 1)]) "x" = some (Value.vint 1) := by
  have h := c8_empty_chain (some [("x", Value.vint 1)])
    (some [("x", Value.vint 0), ("y", Value.vint 2)]) none (by decide)
  exact ⟨h.1, (h.2 "x").trans (by rfl)⟩

theorem harvestVal_of_serializable {k : String} {v : Value}
    (hu : startsWithUnderscore k = false) (hs : jsonSerializable v = true) :
    harvestVal k v = some v := by
  unfold harvestVal
  cases v <;> simp_all [jsonSerializable]

theorem harvestVal_npBool {k : String} {b : Bool}
    (hu : startsWithUnderscore k = false) :
    harvestVal k (Value.npBool b) = some (Value.vbool b) := by
  simp [harvestVal, hu]

theorem harvestVal_underscore {k : String} {v : Value}
    (hu : startsWithUnderscore k = true) : harvestVal k v = none := by
  simp [harvestVal, hu]

theorem harvestVal_not_serializable {k : String} {v : Value}
    (hs : jsonSerializable v = false) (hb : ∀ b, v ≠ Value.npBool b) :
    harvestVal k v = none := by
  unfold harvestVal
  cases hu : startsWithUnderscore k
  · cases v <;> simp_all [jsonSerializable]
  · simp

theorem seedScope_ok_props {sc : ConfigScope} {fixedD preD fbD : Dict}
    {d1 : DogmaticDict} (h : seedScope sc fixedD preD fbD = .ok d1) :
    d1.initialKeys = keysD fixedD ∧
    (∀ j, hasKeyD preD j = false → lookupD d1.store j = lookupD fixedD j) ∧
    (∀ j, j ∈ keysD fixedD → lookupD d1.store j = lookupD fixedD j) ∧
    ((keysD fixedD).Nodup → (keysD d1.store).Nodup) ∧
    wfInit d1 := by
  obtain ⟨d0, fbv, hb, hd1⟩ := seedScope_ok_elim h
  have hinit : d1.initialKeys = d0.initialKeys := by rw [hd1]
  have hstore : d1.store = d0.store := by rw [hd1]
  have hinit0 : d0.initialKeys = keysD fixedD := bindArgs_ok_initialKeys hb
  refine ⟨hinit.trans hinit0, ?_, ?_, ?_, ?_⟩
  · intro j hj
    rw [hstore]
    exact bindArgs_ok_store_not_pre hj hb
  · intro j hj
    rw [hstore]
    exact bindArgs_ok_store_auth hb hj
  · intro hf
    rw [hstore]
    exact bindArgs_ok_nodup_store hb hf
  · intro j hj
    rw [hinit] at hj
    rw [hstore]
    exact bindArgs_ok_wfInit hb (wfInit_dogmatize fixedD) j hj

/-- C3: the four metadata fields of a `ConfigScope` summary are snapshots
of the namespace taken right after body execution and before preset
fill-in: `added_values` is exactly the set of primary keys present after
execution that were not seeded from `fixed`, and a preset key the executed
body did not produce is filled into the result afterwards but never into
`added_values`. -/
theorem c3_added_values (sc : ConfigScope) (fixed preset fallback : Option Dict)
    {d1 d2 : DogmaticDict} {s : ConfigSummary}
    (h1 : seedScope sc (fixed.getD []) (preset.getD []) (fallback.getD []) = .ok d1)
    (h2 : execBody d1 sc.body = some d2)
    (hok : scopeCall sc fixed preset fallback = .ok s)
    (hf : (keysD (fixed.getD [])).Nodup)
    (hpre : (keysD (preset.getD [])).Nodup) :
    (∀ k, k ∈ s.added_values ↔
      k ∈ keysD d2.store ∧ k ∉ keysD (fixed.getD [])) ∧
    s.modified = d2.modified ∧
    s.typechanges = d2.typechanges ∧
    s.ignored_fallback_writes = d2.ignored_fallback_writes ∧
    (∀ k, hasKeyD (preset.getD []) k = true → hasKeyD d2.store k = false →
      k ∉ s.added_values ∧
      (∀ v, lookupD (preset.getD []) k = some v →
        startsWithUnderscore k = false → jsonSerializable v = true →
        lookupD s.result k = some v)) := by
  obtain ⟨d1x, d2x, store2, e1, e2, e3, es⟩ := scopeCall_ok_elim hok
  rw [h1] at e1
  injection e1 with e1
  subst e1
  rw [h2] at e2
  injection e2 with e2
  subst e2
  have hinit2 : d2.initialKeys = keysD (fixed.getD []) := by
    rw [execBody_initialKeys h2, (seedScope_ok_props h1).1]
  have hnodup2 : (keysD d2.store).Nodup :=
    execBody_nodup_store h2 ((seedScope_ok_props h1).2.2.2.1 hf)
  have hnodupStore2 : (keysD store2).Nodup :=
    nodup_recursive_fill_in e3 hnodup2
  refine ⟨?_, by rw [es], by rw [es], by rw [es], ?_⟩
  · intro k
    rw [es]
    show k ∈ revelation d2 ↔ _
    rw [revelation_mem, hinit2]
  · intro k hk1 hk0
    constructor
    · rw [es]
      show k ∉ revelation d2
      rw [revelation_mem]
      intro hc
      rw [hasKeyD_iff_mem_keys.mpr hc.1] at hk0
      cases hk0
    · intro v hv hu hser
      rw [es]
      show lookupD (harvest store2) k = some v
      rw [lookup_harvest hnodupStore2]
      have hst2 : lookupD store2 k = some v := by
        rw [recursive_fill_in_lookup_mem hpre e3 hv,
          lookup_eq_none_of_not_hasKey hk0]
        rfl
      rw [hst2]
      exact harvestVal_of_serializable hu hser

/-- C3, witness: body `a = 1` with `fixed = {f: 7}` and `preset = {p: 5}`:
`a` is in `added_values`, while the filled-in `p` reaches the result but
not `added_values`. -/
theorem c3_added_values_witness :
    (("a" : String) ∈ (["a"] : List String) ↔
      ("a" : String) ∈ keysD [("f", Value.vint 7), ("a", Value.vint 1)] ∧
      ("a" : String) ∉ keysD [("f", Value.vint 7)]) ∧
    ("p" : String) ∉ (["a"] : List String) ∧
    lookupD [("f", Value.vint 7), ("a", Value.vint 1), ("p", Value.vint 5)]
      "p" = some (Value.vint 5) := by
  have h := c3_added_values ⟨[], [Stmt.assign "a" (Expr.lit (Value.vint 1))]⟩
    (some [("f", Value.vint 7)]) (some [("p", Value.vint 5)]) none
    rfl rfl rfl (by decide) (by decide)
  have h5 := h.2.2.2.2 "p" (by decide) (by decide)
  exact ⟨h.1 "a", h5.1, h5.2 (Value.vint 5) rfl (by decide) (by decide)⟩

/-- C7: whenever seeding, body execution and preset fill-in succeed, the
harvest itself never raises — the call returns a summary whose mapping is
the harvest of the filled-in store; that mapping contains no key starting
with `'_'`; a `numpy.bool_` value of an included key is converted to a
plain bool; and a key whose value cannot be JSON-encoded is silently
excluded. -/
theorem c7_harvest (sc : ConfigScope) (fixed preset fallback : Option Dict)
    {d1 d2 : DogmaticDict} {store2 : Dict}
    (h1 : seedScope sc (fixed.getD []) (preset.getD []) (fallback.getD []) = .ok d1)
    (h2 : execBody d1 sc.body = some d2)
    (h3 : recursive_fill_in d2.store (preset.getD []) = some store2)
    (hf : (keysD (fixed.getD [])).Nodup) :
    ∃ s, scopeCall sc fixed preset fallback = .ok s ∧
      s.result = harvest store2 ∧
      (∀ k, k ∈ keysD s.result → startsWithUnderscore k = false) ∧
      (∀ k b, lookupD store2 k = some (Value.npBool b) →
        startsWithUnderscore k = false →
        lookupD s.result k = some (Value.vbool b)) ∧
      (∀ k v, lookupD store2 k = some v → jsonSerializable v = false →
        (∀ b, v ≠ Value.npBool b) → k ∉ keysD s.result) := by
  have hnodup2 : (keysD store2).Nodup :=
    nodup_recursive_fill_in h3
      (execBody_nodup_store h2 ((seedScope_ok_props h1).2.2.2.1 hf))
  refine ⟨_, scopeCall_ok_intro sc fixed preset fallback h1 h2 h3, rfl, ?_, ?_, ?_⟩
  · intro k hk
    cases hu : startsWithUnderscore k
    · rfl
    · exfalso
      rw [← hasKeyD_iff_mem_keys] at hk
      rw [hasKeyD_iff_lookup, lookup_harvest hnodup2] at hk
      cases hl : lookupD store2 k with
      | none => rw [hl] at hk; cases hk
      | some v =>
        rw [hl] at hk
        rw [show (some v).bind (fun v => harvestVal k v) = harvestVal k v from rfl,
          harvestVal_underscore hu] at hk
        cases hk
  · intro k b hst hu
    show lookupD (harvest store2) k = _
    rw [lookup_harvest hnodup2, hst]
    exact harvestVal_npBool hu
  · intro k v hst hser hnb
    rw [← hasKeyD_iff_mem_keys]
    intro hk
    rw [hasKeyD_iff_lookup, lookup_harvest hnodup2, hst] at hk
    rw [show (some v).bind (fun v => harvestVal k v) = harvestVal k v from rfl,
      harvestVal_not_serializable hser hnb] at hk
    cases hk

/-- C7, witness: a body assigning a private name, a numpy bool, a
non-serializable object and a plain int; the call succeeds, the private and
non-serializable keys are dropped and the numpy bool is converted. -/
theorem c7_harvest_witness :
    ∃ s, scopeCall ⟨[], [Stmt.assign "_h" (Expr.lit (Value.vint 1)),
        Stmt.assign "nb" (Expr.lit (Value.npBool true)),
        Stmt.assign "bad" (Expr.lit (Value.vobj 0)),
        Stmt.assign "good" (Expr.lit (Value.vint 3))]⟩ none none none = .ok s ∧
      s.result = harvest [("_h", Value.vint 1), ("nb", Value.npBool true),
        ("bad", Value.vobj 0), ("good", Value.vint 3)] ∧
      (∀ k, k ∈ keysD s.result → startsWithUnderscore k = false) ∧
      (∀ k b, lookupD [("_h", Value.vint 1), ("nb", Value.npBool true),
          ("bad", Value.vobj 0), ("good", Value.vint 3)] k =
            some (Value.npBool b) →
        startsWithUnderscore k = false →
        lookupD s.result k = some (Value.vbool b)) ∧
      (∀ k v, lookupD [("_h", Value.vint 1), ("nb", Value.npBool true),
          ("bad", Value.vobj 0), ("good", Value.vint 3)] k = some v →
        jsonSerializable v = false →
        (∀ b, v ≠ Value.npBool b) → k ∉ keysD s.result) :=
  c7_harvest ⟨[], [Stmt.assign "_h" (Expr.lit (Value.vint 1)),
      Stmt.assign "nb" (Expr.lit (Value.npBool true)),
      Stmt.assign "bad" (Expr.lit (Value.vobj 0)),
      Stmt.assign "good" (Expr.lit (Value.vint 3))]⟩ none none none
    rfl rfl rfl (by decide)

/-- C4, counterexample: the claim asserts that a fallback-only parameter
the body assigns appears in the materialized result with the assigned
value.  For the parameter `_p` (a legal Python parameter name), the body
assignment `_p = 2` is recorded in `ignored_fallback_writes`, but the
harvest drops every key starting with `'_'`, so the result does not
contain `_p` at all. -/
theorem c4_counterexample :
    scopeCall ⟨["_p"], [Stmt.assign "_p" (Expr.lit (Value.vint 2))]⟩
        none none (some [("_p", Value.vint 1)]) =
      .ok { result := [], added_values := ["_p"], modified := [],
            typechanges := [], ignored_fallback_writes := ["_p"] } ∧
    Stmt.assign "_p" (Expr.lit (Value.vint 2)) ∈
      [Stmt.assign "_p" (Expr.lit (Value.vint 2))] ∧
    lookupD ([] : Dict) "_p" = none :=
  ⟨rfl, List.mem_cons_self _ _, rfl⟩

/-- C4 (amended): for a parameter `p` resolvable only from `fallback`
(absent from `preset`, from `fallback`'s complement `fixed`, and present in
`fallback`): if the executed body never assigns `p` the result has no key
`p`; if the body assigns `p`, then `p` is recorded in
`ignored_fallback_writes`, `p` is in the namespace after execution, and the
result carries the assigned value provided `p` does not start with `'_'`
and the value is JSON-serializable.  A parameter present in `preset` is
bound to the preset value and is not registered in the read-only fallback
view. -/
theorem c4_fallback_isolation (sc : ConfigScope)
    (fixed preset fallback : Option Dict) (p : String)
    {d1 d2 : DogmaticDict} {s : ConfigSummary}
    (h1 : seedScope sc (fixed.getD []) (preset.getD []) (fallback.getD []) = .ok d1)
    (h2 : execBody d1 sc.body = some d2)
    (hok : scopeCall sc fixed preset fallback = .ok s)
    (hf : (keysD (fixed.getD [])).Nodup)
    (hp : p ∈ sc.args)
    (hpre : hasKeyD (preset.getD []) p = false)
    (hfb : hasKeyD (fallback.getD []) p = true)
    (hfix : hasKeyD (fixed.getD []) p = false) :
    ((∀ e, Stmt.assign p e ∉ sc.body) → hasKeyD s.result p = false) ∧
    ((∃ e, Stmt.assign p e ∈ sc.body) →
      p ∈ s.ignored_fallback_writes ∧
      hasKeyD d2.store p = true ∧
      (∀ v, lookupD d2.store p = some v → startsWithUnderscore p = false →
        jsonSerializable v = true → lookupD s.result p = some v)) ∧
    (∀ q v, q ∈ sc.args → lookupD (preset.getD []) q = some v →
      hasKeyD (fixed.getD []) q = false →
      lookupD d1.store q = some v ∧ hasKeyD d1.fallback q = false) := by
  obtain ⟨d1x, d2x, store2, e1, e2, e3, es⟩ := scopeCall_ok_elim hok
  rw [h1] at e1
  injection e1 with e1
  subst e1
  rw [h2] at e2
  injection e2 with e2
  subst e2
  obtain ⟨d0, fbv, hb, hd1⟩ := seedScope_ok_elim h1
  have hinit1 : d1.initialKeys = keysD (fixed.getD []) := (seedScope_ok_props h1).1
  have hpinit : p ∉ d1.initialKeys := by
    rw [hinit1]
    intro hc
    rw [hasKeyD_iff_mem_keys.mpr hc] at hfix
    cases hfix
  have hstore1 : lookupD d1.store p = none := by
    rw [(seedScope_ok_props h1).2.1 p hpre]
    exact lookup_eq_none_of_not_hasKey hfix
  have hnodup2 : (keysD d2.store).Nodup :=
    execBody_nodup_store h2 ((seedScope_ok_props h1).2.2.2.1 hf)
  have hnodupStore2 : (keysD store2).Nodup := nodup_recursive_fill_in e3 hnodup2
  have hpreD : p ∉ keysD (preset.getD []) := by
    intro hc
    rw [hasKeyD_iff_mem_keys.mpr hc] at hpre
    cases hpre
  have hst2 : lookupD store2 p = lookupD d2.store p :=
    recursive_fill_in_lookup_not_mem hpreD e3
  refine ⟨?_, ?_, ?_⟩
  · intro hnone
    have hd2p : hasKeyD d2.store p = false := by
      cases hh : hasKeyD d2.store p
      · rfl
      · rcases execBody_store_key_source h2 hh with hc | ⟨e, he⟩
        · rw [hasKeyD_iff_lookup, hstore1] at hc
          cases hc
        · exact absurd he (hnone e)
    rw [es]
    show hasKeyD (harvest store2) p = false
    cases hh : hasKeyD (harvest store2) p
    · rfl
    · exfalso
      rw [hasKeyD_iff_lookup, lookup_harvest hnodupStore2, hst2,
        lookup_eq_none_of_not_hasKey hd2p] at hh
      cases hh
  · rintro ⟨e, he⟩
    have hfbv : hasKeyD d1.fallback p = true := by
      rw [hd1]
      show hasKeyD fbv p = true
      exact bindArgs_ok_fbview_of_arg (lookup_eq_none_of_not_hasKey hpre) hfb hb hp
    have hs1 : hasKeyD d1.store p = false := by
      cases hh : hasKeyD d1.store p
      · rfl
      · rw [hasKeyD_iff_lookup, hstore1] at hh
        cases hh
    refine ⟨?_, ?_, ?_⟩
    · rw [es]
      show p ∈ d2.ignored_fallback_writes
      exact execBody_ignored_of_fallback_assign h2 he hs1 hfbv hpinit
    · exact execBody_store_hasKey_of_assign h2 he hpinit
    · intro v hv hu hser
      rw [es]
      show lookupD (harvest store2) p = some v
      rw [lookup_harvest hnodupStore2, hst2, hv]
      exact harvestVal_of_serializable hu hser
  · intro q v hq hqv hqfix
    have hqinit : q ∉ (dogmatize (fixed.getD [])).initialKeys := by
      show q ∉ keysD (fixed.getD [])
      intro hc
      rw [hasKeyD_iff_mem_keys.mpr hc] at hqfix
      cases hqfix
    constructor
    · rw [hd1]
      show lookupD d0.store q = some v
      exact bindArgs_ok_store_bound hqv hb hq hqinit
    · rw [hd1]
      show hasKeyD fbv q = false
      exact bindArgs_ok_fbview_not_pre hqv hb rfl

/-- C4, witness: scope with parameters `q` (preset-resolved) and `r`
(fallback-only), body `r = "x"`: the assigned `r` reaches the result and
`ignored_fallback_writes`, `q` is bound from the preset; a second scope
that never assigns `r` yields a result without `r`. -/
theorem c4_fallback_isolation_witness :
    (("r" : String) ∈ (["r"] : List String) ∧
      hasKeyD [("q", Value.vint 9), ("r", Value.vstr "x")] "r" = true ∧
      lookupD [("q", Value.vint 9), ("r", Value.vstr "x")] "r" =
        some (Value.vstr "x")) ∧
    hasKeyD ([("q", Value.vint 9)] : Dict) "r" = false := by
  constructor
  · have h := c4_fallback_isolation ⟨["q", "r"],
      [Stmt.assign "r" (Expr.lit (Value.vstr "x"))]⟩ none
      (some [("q", Value.vint 9)])
      (some [("r", Value.vstr "abc"), ("q", Value.vint 0)]) "r"
      rfl rfl rfl (by decide) (by decide) (by decide) (by decide) (by decide)
    have h2 := h.2.1 ⟨Expr.lit (Value.vstr "x"), List.mem_cons_self _ _⟩
    exact ⟨h2.1, h2.2.1, h2.2.2 (Value.vstr "x") rfl (by decide) (by decide)⟩
  · have h := c4_fallback_isolation ⟨["q", "r"], []⟩ none
      (some [("q", Value.vint 9)])
      (some [("r", Value.vstr "abc"), ("q", Value.vint 0)]) "r"
      rfl rfl rfl (by decide) (by decide) (by decide) (by decide) (by decide)
    exact h.1 (fun e hc => by cases hc)

theorem fillVal_some_not_vdict {v pv : Value}
    (h : ∀ dv, v ≠ Value.vdict dv) : fillVal (some v) pv = some v := by
  cases v with
  | vdict dv => exact absurd rfl (h dv)
  | vnone => rfl
  | vbool b => rfl
  | npBool b => rfl
  | vint n => rfl
  | vstr s2 => rfl
  | vobj n => rfl

/-- C1, counterexample: for a `ConfigScope` and `fixed = {_x: 1}`, the
harvest drops the key `_x` (it starts with `'_'`), so the materialized
result does not map `_x` to `fixed[_x]` even though nothing ever wrote to
it. -/
theorem c1_counterexample :
    scopeCall ⟨[], []⟩ (some [("_x", Value.vint 1)]) none none =
      .ok { result := [], added_values := [], modified := [],
            typechanges := [], ignored_fallback_writes := [] } ∧
    lookupD [("_x", Value.vint 1)] "_x" = some (Value.vint 1) ∧
    lookupD ([] : Dict) "_x" = none :=
  ⟨rfl, rfl, rfl⟩

/-- C1 (amended): for any entry and any `fixed` containing `k`, the
materialized result maps `k` to `fixed[k]` provided `k` does not start
with `'_'`, `fixed[k]` is JSON-serializable, and not both `fixed[k]` and
`preset[k]` are mappings (in that one case preset fill-in merges missing
nested keys into the fixed mapping); the namespace write semantics still
guarantee `fixed[k]` survives every attempted override, and any entry that
assigns `k` (by body statement or literal binding) puts `k` into
`modified`. -/
theorem c1_fixed_authoritative (entry : ConfigEntry)
    (fixed preset fallback : Option Dict) (k : String) (v : Value)
    {s : ConfigSummary}
    (hok : entryCall entry fixed preset fallback = .ok s)
    (hf : (keysD (fixed.getD [])).Nodup)
    (hpre : (keysD (preset.getD [])).Nodup)
    (hk : lookupD (fixed.getD []) k = some v)
    (hu : startsWithUnderscore k = false)
    (hser : jsonSerializable v = true)
    (hnest : ∀ dv pd, v = Value.vdict dv →
      lookupD (preset.getD []) k = some (Value.vdict pd) → False) :
    lookupD s.result k = some v ∧
    (entryAssignsKey entry k → k ∈ s.modified) := by
  have hkmem : k ∈ keysD (fixed.getD []) :=
    hasKeyD_iff_mem_keys.mp (hasKey_of_lookup_some hk)
  cases entry with
  | litdict conf =>
    cases preset with
    | none => cases hok
    | some preD =>
      unfold entryCall dictCall at hok
      dsimp only at hok
      injection hok with hok
      have hinit : (dupdate (dogmatize (fixed.getD [])) preD).initialKeys =
          keysD (fixed.getD []) := dupdate_initialKeys _ _
      constructor
      · rw [← hok]
        show lookupD (undogmatize (dupdate (dupdate (dogmatize (fixed.getD []))
          preD) conf).store) k = some v
        unfold undogmatize
        rw [lookup_dupdate_store_auth (by rw [hinit]; exact hkmem),
          lookup_dupdate_store_auth hkmem]
        exact hk
      · intro ha
        rw [← hok]
        show k ∈ (dupdate (dupdate (dogmatize (fixed.getD [])) preD) conf).modified
        exact dupdate_modified_of_mem ha (by rw [hinit]; exact hkmem)
  | scope sc =>
    obtain ⟨d1, d2, store2, e1, e2, e3, es⟩ := scopeCall_ok_elim hok
    have hinit1 : d1.initialKeys = keysD (fixed.getD []) := (seedScope_ok_props e1).1
    have hkinit : k ∈ d1.initialKeys := by rw [hinit1]; exact hkmem
    have hd1 : lookupD d1.store k = some v := by
      rw [(seedScope_ok_props e1).2.2.1 k hkmem]
      exact hk
    have hd2 : lookupD d2.store k = some v := by
      rw [execBody_store_auth e2 hkinit]
      exact hd1
    have hnodup2 : (keysD d2.store).Nodup :=
      execBody_nodup_store e2 ((seedScope_ok_props e1).2.2.2.1 hf)
    have hnodupStore2 : (keysD store2).Nodup := nodup_recursive_fill_in e3 hnodup2
    have hst2 : lookupD store2 k = some v := by
      cases hkp : lookupD (preset.getD []) k with
      | none =>
        have hna : k ∉ keysD (preset.getD []) := by
          intro hc
          have hi := hasKeyD_iff_lookup.mp (hasKeyD_iff_mem_keys.mpr hc)
          rw [hkp] at hi
          cases hi
        rw [recursive_fill_in_lookup_not_mem hna e3]
        exact hd2
      | some pv =>
        rw [recursive_fill_in_lookup_mem hpre e3 hkp, hd2]
        cases hv : v with
        | vdict dv =>
          have hOK : fillKeyOK (lookupD d2.store k) pv = true := by
            have hs := (recursive_fill_in_isSome hpre).mp (by rw [e3]; rfl)
            exact hs (k, pv) ((mem_iff_lookup_of_nodup hpre).mpr hkp)
          rw [hd2, hv] at hOK
          cases pv with
          | vdict pd => exact (hnest dv pd hv hkp).elim
          | vstr s2 =>
            unfold fillKeyOK at hOK
            have hs2 : s2 = "" := by simpa using hOK
            subst hs2
            rfl
          | vnone => cases hOK
          | vbool b => cases hOK
          | npBool b => cases hOK
          | vint n => cases hOK
          | vobj n => cases hOK
        | vnone => rfl
        | vbool b => rfl
        | npBool b => rfl
        | vint n => rfl
        | vstr s2 => rfl
        | vobj n => rfl
    constructor
    · rw [es]
      show lookupD (harvest store2) k = some v
      rw [lookup_harvest hnodupStore2, hst2]
      exact harvestVal_of_serializable hu hser
    · rintro ⟨e, he⟩
      rw [es]
      show k ∈ d2.modified
      exact execBody_modified_of_assign e2 he hkinit

/-- C1, witness: a literal entry `{x: 5}` under `fixed = {x: 10}` — the
result keeps 10 and `x` is recorded as modified; and a scope whose body
assigns `x = 5` under the same `fixed`. -/
theorem c1_fixed_authoritative_witness :
    (lookupD [("x", Value.vint 10)] "x" = some (Value.vint 10) ∧
      ("x" : String) ∈ (["x"] : List String)) ∧
    (lookupD [("x", Value.vint 10)] "x" = some (Value.vint 10) ∧
      ("x" : String) ∈ (["x"] : List String)) := by
  constructor
  · have h := c1_fixed_authoritative (.litdict [("x", Value.vint 5)])
      (some [("x", Value.vint 10)]) (some []) none "x" (Value.vint 10)
      rfl (by decide) (by decide) rfl (by decide) (by decide)
      (by intro dv pd hv _; exact Value.noConfusion hv)
    exact ⟨h.1, h.2 (show ("x" : String) ∈ keysD [("x", Value.vint 5)] by decide)⟩
  · have h := c1_fixed_authoritative
      (.scope ⟨[], [Stmt.assign "x" (Expr.lit (Value.vint 5))]⟩)
      (some [("x", Value.vint 10)]) none none "x" (Value.vint 10)
      rfl (by decide) (by decide) rfl (by decide) (by decide)
      (by intro dv pd hv _; exact Value.noConfusion hv)
    exact ⟨h.1, h.2 ⟨Expr.lit (Value.vint 5), List.mem_cons_self _ _⟩⟩

theorem entryCall_norm (entry : ConfigEntry) (fixed preset fallback : Option Dict) :
    entryCall entry (some (fixed.getD [])) preset (some (fallback.getD [])) =
      entryCall entry fixed preset fallback := by
  cases entry <;> cases fixed <;> cases fallback <;> rfl

theorem entryCall_ok_nodup_result {entry : ConfigEntry}
    {fixed preset fallback : Option Dict} {s : ConfigSummary}
    (h : entryCall entry fixed preset fallback = .ok s)
    (hf : (keysD (fixed.getD [])).Nodup) : (keysD s.result).Nodup := by
  cases entry with
  | scope sc =>
    obtain ⟨d1, d2, store2, e1, e2, e3, es⟩ := scopeCall_ok_elim h
    rw [es]
    exact nodup_harvest store2
  | litdict conf =>
    cases preset with
    | none => cases h
    | some preD =>
      unfold entryCall dictCall at h
      dsimp only at h
      injection h with h
      rw [← h]
      show (keysD (undogmatize (dupdate (dupdate (dogmatize (fixed.getD []))
        preD) conf).store)).Nodup
      exact nodup_dupdate_store (nodup_dupdate_store hf)

theorem entryCall_congr {entry : ConfigEntry} (fixed fallback : Option Dict)
    {p₁ p₂ : Dict} (hpp : ∀ x, lookupD p₁ x = lookupD p₂ x)
    (hn₁ : (keysD p₁).Nodup) (hn₂ : (keysD p₂).Nodup)
    (hw : entryWF entry) (hf : (keysD (fixed.getD [])).Nodup)
    {s₁ : ConfigSummary}
    (h : entryCall entry fixed (some p₁) fallback = .ok s₁) :
    ∃ s₂, entryCall entry fixed (some p₂) fallback = .ok s₂ ∧
      ∀ j, lookupD s₂.result j = lookupD s₁.result j := by
  cases entry with
  | litdict conf =>
    unfold entryCall dictCall at h ⊢
    dsimp only at h ⊢
    injection h with h
    refine ⟨_, rfl, ?_⟩
    intro j
    rw [← h]
    show lookupD (undogmatize (dupdate (dupdate (dogmatize (fixed.getD []))
        p₂) conf).store) j =
      lookupD (undogmatize (dupdate (dupdate (dogmatize (fixed.getD []))
        p₁) conf).store) j
    unfold undogmatize
    have hwc : (keysD conf).Nodup := hw
    by_cases hj : j ∈ keysD (fixed.getD [])
    · have hj1 : j ∈ (dupdate (dogmatize (fixed.getD [])) p₁).initialKeys := by
        rw [dupdate_initialKeys]; exact hj
      have hj2 : j ∈ (dupdate (dogmatize (fixed.getD [])) p₂).initialKeys := by
        rw [dupdate_initialKeys]; exact hj
      rw [lookup_dupdate_store_auth hj2, lookup_dupdate_store_auth hj1,
        lookup_dupdate_store_auth hj, lookup_dupdate_store_auth hj]
    · have hj1 : j ∉ (dupdate (dogmatize (fixed.getD [])) p₁).initialKeys := by
        rw [dupdate_initialKeys]; exact hj
      have hj2 : j ∉ (dupdate (dogmatize (fixed.getD [])) p₂).initialKeys := by
        rw [dupdate_initialKeys]; exact hj
      rw [lookup_dupdate_store_not_auth hj2 hwc,
        lookup_dupdate_store_not_auth hj1 hwc]
      cases hc : lookupD conf j with
      | some w => rfl
      | none =>
        have hj0 : j ∉ (dogmatize (fixed.getD [])).initialKeys := hj
        rw [lookup_dupdate_store_not_auth hj0 hn₂,
          lookup_dupdate_store_not_auth hj0 hn₁, hpp j]
  | scope sc =>
    obtain ⟨d1, d2, store2, e1, e2, e3, es⟩ := scopeCall_ok_elim h
    replace e1 : seedScope sc (fixed.getD []) p₁ (fallback.getD []) = .ok d1 := e1
    replace e3 : recursive_fill_in d2.store p₁ = some store2 := e3
    obtain ⟨d0, fbv, hb, hd1⟩ := seedScope_ok_elim e1
    have hb₂ : bindArgs p₂ (fallback.getD [])
        (availableEntries p₂ (fallback.getD [])) (dogmatize (fixed.getD []))
        [] sc.args = .ok (d0, fbv) := bindArgs_congr hpp hb
    have e1₂ : seedScope sc (fixed.getD []) p₂ (fallback.getD []) = .ok d1 := by
      unfold seedScope
      rw [hb₂]
      dsimp only
      rw [hd1]
    have hsucc₂ : (recursive_fill_in d2.store p₂).isSome = true := by
      rw [recursive_fill_in_isSome hn₂]
      intro kv hm
      obtain ⟨k, v⟩ := kv
      have hlk₂ : lookupD p₂ k = some v := (mem_iff_lookup_of_nodup hn₂).mp hm
      have hlk₁ : lookupD p₁ k = some v := by rw [hpp]; exact hlk₂
      exact (recursive_fill_in_isSome hn₁).mp (by rw [e3]; rfl) (k, v)
        ((mem_iff_lookup_of_nodup hn₁).mpr hlk₁)
    obtain ⟨store2', e3'⟩ := Option.isSome_iff_exists.mp hsucc₂
    have hintro := scopeCall_ok_intro sc fixed (some p₂) fallback e1₂ e2 e3'
    refine ⟨_, hintro, ?_⟩
    intro j
    rw [es]
    show lookupD (harvest store2') j = lookupD (harvest store2) j
    have hnst : (keysD d2.store).Nodup :=
      execBody_nodup_store e2 ((seedScope_ok_props e1).2.2.2.1 hf)
    rw [lookup_harvest (nodup_recursive_fill_in e3' hnst),
      lookup_harvest (nodup_recursive_fill_in e3 hnst)]
    have hst : lookupD store2' j = lookupD store2 j := by
      cases hl : lookupD p₁ j with
      | none =>
        have hl₂ : lookupD p₂ j = none := by rw [← hpp]; exact hl
        have hm1 : j ∉ keysD p₁ := by
          intro hc
          have hi := hasKeyD_iff_lookup.mp (hasKeyD_iff_mem_keys.mpr hc)
          rw [hl] at hi
          cases hi
        have hm2 : j ∉ keysD p₂ := by
          intro hc
          have hi := hasKeyD_iff_lookup.mp (hasKeyD_iff_mem_keys.mpr hc)
          rw [hl₂] at hi
          cases hi
        rw [recursive_fill_in_lookup_not_mem hm2 e3',
          recursive_fill_in_lookup_not_mem hm1 e3]
      | some pv =>
        rw [recursive_fill_in_lookup_mem hn₂ e3' (by rw [← hpp]; exact hl),
          recursive_fill_in_lookup_mem hn₁ e3 hl]
    rw [hst]

theorem chainLoop_nil (fixedD fbD final : Dict) (sums : List ConfigSummary) :
    chainLoop fixedD fbD final sums [] = .ok (final, sums) := rfl

theorem chainLoop_cons (fixedD fbD final : Dict) (sums : List ConfigSummary)
    (entry : ConfigEntry) (rest : List ConfigEntry) :
    chainLoop fixedD fbD final sums (entry :: rest) =
      match entryCall entry (some fixedD) (some final) (some fbD) with
      | .error e => .error e
      | .ok cfg =>
        chainLoop fixedD fbD (updateD final cfg.result) (sums ++ [cfg]) rest := rfl

/-- C2, counterexample: with starting preset `{_p: 1}` and two empty
scopes, the chain's final result keeps `_p` (the running result starts
from the preset and merges never delete), while evaluating the second
scope alone on the first scope's result loses `_p` — the first scope's
harvest already dropped it. -/
theorem c2_counterexample :
    (match chain_evaluate_config_scopes
        [ConfigEntry.scope ⟨[], []⟩, ConfigEntry.scope ⟨[], []⟩]
        (some []) (some [("_p", Value.vint 1)]) (some []) with
     | .ok (final, _) => lookupD final "_p"
     | .error _ => none) = some (Value.vint 1) ∧
    entryCall (ConfigEntry.scope ⟨[], []⟩) (some [])
        (some [("_p", Value.vint 1)]) (some []) =
      .ok { result := [], added_values := [], modified := [], typechanges := [],
            ignored_fallback_writes := [] } ∧
    (match entryCall (ConfigEntry.scope ⟨[], []⟩) (some []) (some [])
        (some []) with
     | .ok s => lookupD s.result "_p"
     | .error _ => some (Value.vint 0)) = none :=
  ⟨rfl, rfl, rfl⟩

/-- C2 (amended): evaluating the chain `[A, B]` with `fixed = F` yields a
final mapping extensionally equal to the result of evaluating `B` alone
with `preset` equal to A's result, provided every key of the starting
preset survives into A's result and every key of A's result survives into
B's result (the harvest may otherwise drop keys); the summary list has one
entry per chain member, and on keys present in both results and not in
`F`, B's value is the one in the final result. -/
theorem c2_chain_fold (A B : ConfigEntry) (fixed preset fallback : Option Dict)
    {sA sB : ConfigSummary}
    (hf : (keysD (fixed.getD [])).Nodup)
    (hp : (keysD (preset.getD [])).Nodup)
    (hwB : entryWF B)
    (hA : entryCall A fixed (some (preset.getD [])) fallback = .ok sA)
    (hB : entryCall B fixed (some sA.result) fallback = .ok sB)
    (hAkeys : ∀ j, j ∈ keysD (preset.getD []) → hasKeyD sA.result j = true)
    (hBkeys : ∀ j, j ∈ keysD sA.result → hasKeyD sB.result j = true) :
    ∃ final sums,
      chain_evaluate_config_scopes [A, B] fixed preset fallback =
        .ok (final, sums) ∧
      (∀ j, lookupD final j = lookupD sB.result j) ∧
      sums.length = 2 ∧
      (∀ j, hasKeyD sA.result j = true → hasKeyD sB.result j = true →
        hasKeyD (fixed.getD []) j = false →
        lookupD final j = lookupD sB.result j) := by
  have hnA : (keysD sA.result).Nodup := entryCall_ok_nodup_result hA hf
  have hequiv : ∀ j, lookupD sA.result j =
      lookupD (updateD (preset.getD []) sA.result) j := by
    intro j
    rw [lookup_updateD hnA]
    cases hl : lookupD sA.result j with
    | some w => rfl
    | none =>
      cases hl0 : lookupD (preset.getD []) j with
      | none => rfl
      | some w =>
        exfalso
        have hj : j ∈ keysD (preset.getD []) :=
          hasKeyD_iff_mem_keys.mp (hasKey_of_lookup_some hl0)
        have hi := hAkeys j hj
        rw [hasKeyD_iff_lookup, hl] at hi
        cases hi
  have hnP₁ : (keysD (updateD (preset.getD []) sA.result)).Nodup :=
    nodup_keysD_updateD hp
  obtain ⟨sB', hB', hres⟩ := entryCall_congr fixed fallback hequiv hnA hnP₁ hwB hf hB
  have hA' : entryCall A (some (fixed.getD [])) (some (preset.getD []))
      (some (fallback.getD [])) = .ok sA := by
    rw [entryCall_norm]
    exact hA
  have hB'' : entryCall B (some (fixed.getD []))
      (some (updateD (preset.getD []) sA.result))
      (some (fallback.getD [])) = .ok sB' := by
    rw [entryCall_norm]
    exact hB'
  have hchain : chain_evaluate_config_scopes [A, B] fixed preset fallback =
      .ok (updateD (updateD (preset.getD []) sA.result) sB'.result,
        [sA, sB']) := by
    unfold chain_evaluate_config_scopes
    rw [chainLoop_cons, hA']
    dsimp only
    rw [chainLoop_cons, hB'']
    dsimp only
    rw [chainLoop_nil]
    rfl
  have hnB' : (keysD sB'.result).Nodup := entryCall_ok_nodup_result hB' hf
  have hmain : ∀ j, lookupD (updateD (updateD (preset.getD []) sA.result)
      sB'.result) j = lookupD sB.result j := by
    intro j
    rw [lookup_updateD hnB']
    cases hl : lookupD sB'.result j with
    | some w =>
      have h2 := hres j
      rw [hl] at h2
      exact h2
    | none =>
      have hlB : lookupD sB.result j = none := by
        rw [← hres j]
        exact hl
      have hjA : j ∉ keysD sA.result := by
        intro hc
        have hi := hBkeys j hc
        rw [hasKeyD_iff_lookup, hlB] at hi
        cases hi
      have hlA : lookupD sA.result j = none := by
        apply lookup_eq_none_of_not_hasKey
        cases hh : hasKeyD sA.result j
        · rfl
        · exact absurd (hasKeyD_iff_mem_keys.mp hh) hjA
      rw [hlB, lookup_updateD hnA, hlA]
      cases hl0 : lookupD (preset.getD []) j with
      | none => rfl
      | some w =>
        exfalso
        have hj : j ∈ keysD (preset.getD []) :=
          hasKeyD_iff_mem_keys.mp (hasKey_of_lookup_some hl0)
        have hi := hAkeys j hj
        rw [hasKeyD_iff_lookup, hlA] at hi
        cases hi
  exact ⟨_, _, hchain, hmain, rfl, fun j _ _ _ => hmain j⟩

/-- C2, witness: the chain `[{a: 1}, scope(a ↦ b = a)]` over empty layers,
against evaluating the scope alone on the literal entry's result. -/
theorem c2_chain_fold_witness :
    ∃ final sums,
      chain_evaluate_config_scopes
        [ConfigEntry.litdict [("a", Value.vint 1)],
         ConfigEntry.scope ⟨["a"], [Stmt.assign "b" (Expr.evar "a")]⟩]
        (some []) (some []) (some []) = .ok (final, sums) ∧
      (∀ j, lookupD final j =
        lookupD [("a", Value.vint 1), ("b", Value.vint 1)] j) ∧
      sums.length = 2 ∧
      (∀ j, hasKeyD [("a", Value.vint 1)] j = true →
        hasKeyD [("a", Value.vint 1), ("b", Value.vint 1)] j = true →
        hasKeyD (((some []) : Option Dict).getD []) j = false →
        lookupD final j =
          lookupD [("a", Value.vint 1), ("b", Value.vint 1)] j) := by
  have h := c2_chain_fold (ConfigEntry.litdict [("a", Value.vint 1)])
    (ConfigEntry.scope ⟨["a"], [Stmt.assign "b" (Expr.evar "a")]⟩)
    (some []) (some []) (some []) (by decide) (by decide) trivial rfl rfl
    (by intro j hj; cases hj)
    (by intro j hj
        have hj2 : j ∈ ["a"] := hj
        have hj1 : j = "a" := by simpa using hj2
        subst hj1
        decide)
  exact h

end Sacred
